import Mathlib

/-!
# A shallow embedding of the `yasna.rs` DER writer (`src/writer/mod.rs`)

Buffers (`Vec<u8>`) are modelled as `List Nat` with every element a byte
value below 256; a Rust method that pushes bytes onto `&mut Vec<u8>`
becomes a Lean function `List Nat → List Nat` that appends those bytes.
Machine arithmetic is modelled on `Nat`/`Int`: Rust's `x >> n` on `u64`
is `x >>> n` on `Nat`, `x >> n` on `i64` is the floor division `x / 2^n`
on `Int` (Lean's `Int` division is Euclidean, which is the floor for a
positive divisor), and `x as u8` is `x % 256` (on `Int`: `(x % 256).toNat`,
Euclidean remainder being the nonnegative residue).

Fallible operations (`io::Result`, plus the `assert!` in `write_set`)
return a `DerResult` value: `.ok` with the updated buffer, `.error e`
for the recoverable error channel propagated by `try!`, and `.panic`
for an assertion failure.
-/

namespace Yasna

/-- Modelled from the spec (§3, data model): the tag-class enum of the crate
(defined outside `src/writer/mod.rs`); its four values carry the standard
2-bit class codes 0..3, read off by `as u8` in `write_identifier`. -/
inductive TagClass where
  | universal
  | application
  | contextSpecific
  | priv
deriving DecidableEq, Repr

def TagClass.toNat : TagClass → Nat
  | .universal => 0
  | .application => 1
  | .contextSpecific => 2
  | .priv => 3

/-- Modelled from the spec (§3): a tag is a class plus an unsigned tag
number (`u64` in the crate, hence theorems restrict it to `< 2^64`). -/
structure Tag where
  tag_class : TagClass
  tag_number : Nat
deriving DecidableEq, Repr

/-- Modelled from the spec (§4.5): universal tag 1 (BOOLEAN). -/
def TAG_BOOLEAN : Tag := ⟨.universal, 1⟩

/-- Modelled from the spec (§4.5): universal tag 2 (INTEGER). -/
def TAG_INTEGER : Tag := ⟨.universal, 2⟩

/-- Modelled from the spec (§4.5): universal tag 4 (OCTETSTRING). -/
def TAG_OCTETSTRING : Tag := ⟨.universal, 4⟩

/-- Modelled from the spec (§4.5): universal tag 5 (NULL). -/
def TAG_NULL : Tag := ⟨.universal, 5⟩

/-- Modelled from the spec (§4.7): universal tag 16 (SEQUENCE). -/
def TAG_SEQUENCE : Tag := ⟨.universal, 16⟩

/-- Modelled from the spec (§4.8): universal tag 17 (SET). -/
def TAG_SET : Tag := ⟨.universal, 17⟩

/-- The `PC` enum of `src/writer/mod.rs` (`Primitive = 0, Constructed = 1`). -/
inductive PC where
  | Primitive
  | Constructed
deriving DecidableEq, Repr

def PC.toNat : PC → Nat
  | .Primitive => 0
  | .Constructed => 1

/-- Outcome of a fallible writer operation: `ok` carries the updated
buffer/state, `error` is the `io::Result` error channel (`try!`), and
`panic` models an `assert!` failure (irrecoverable, not an `Err`). -/
inductive DerResult (ε : Type) (α : Type) where
  | panic
  | error (e : ε)
  | ok (a : α)
deriving DecidableEq, Repr

/-- The first loop of `write_identifier` for a high tag number: starting
from `shiftnum = 63 = 7*9`, decrement by 7 while `tag_number >> shiftnum`
is zero.  `findShift7 tn k` is that loop started at `shiftnum = 7*k`;
the source starts it at `k = 9`. -/
def findShift7 (tn : Nat) : Nat → Nat
  | 0 => 0
  | k + 1 => if tn >>> (7 * (k + 1)) = 0 then findShift7 tn k else 7 * (k + 1)

/-- The two emission loops of `write_identifier` for a high tag number:
`while shiftnum > 0 { push(128 | ((tn >> shiftnum) & 127)); shiftnum -= 7 }`
followed by `push(tn & 127)`.  `pushGroups tn k` is the byte list they
produce when started at `shiftnum = 7*k`. -/
def pushGroups (tn : Nat) : Nat → List Nat
  | 0 => [tn % 128]
  | k + 1 => (128 ||| ((tn >>> (7 * (k + 1))) % 128)) :: pushGroups tn k

/-- `DERWriter::write_identifier` of `src/writer/mod.rs`. -/
def write_identifier (tag : Tag) (pc : PC) (buf : List Nat) : List Nat :=
  let classid := tag.tag_class.toNat
  let pcid := pc.toNat
  if tag.tag_number < 31 then
    buf ++ [(classid <<< 6) ||| (pcid <<< 5) ||| (tag.tag_number % 256)]
  else
    buf ++ ((classid <<< 6) ||| (pcid <<< 5) ||| 31)
      :: pushGroups tag.tag_number (findShift7 tag.tag_number 9 / 7)

/-- The search loop of `write_length` (also duplicated inside
`with_length`): starting from `shiftnum = 56 = 7*8`, decrement by 8 while
`length >> shiftnum` is zero.  `lenShiftAux length k` is that loop started
at `shiftnum = 8*k`; the source starts it at `k = 7`. -/
def lenShiftAux (length : Nat) : Nat → Nat
  | 0 => 0
  | k + 1 => if length >>> (8 * (k + 1)) = 0 then lenShiftAux length k else 8 * (k + 1)

/-- The big-endian byte emission loop shared (textually) by `write_length`,
`with_length` and `write_u64`: `loop { push((v >> shiftnum) as u8);
if shiftnum == 0 break; shiftnum -= 8 }` started at `shiftnum = 8*k`. -/
def lenBytes (v : Nat) : Nat → List Nat
  | 0 => [v % 256]
  | k + 1 => ((v >>> (8 * (k + 1))) % 256) :: lenBytes v k

/-- The length octets `write_length` pushes for a given length; the same
octets are written (into the placeholder region) by `with_length`. -/
def lenOctets (length : Nat) : List Nat :=
  if length < 128 then [length]
  else (128 ||| (lenShiftAux length 7 / 8 + 1)) :: lenBytes length (lenShiftAux length 7 / 8)

/-- `DERWriter::write_length` of `src/writer/mod.rs` (the `length as u64`
cast is the identity: `usize` is 64-bit here). -/
def write_length (length : Nat) (buf : List Nat) : List Nat :=
  buf ++ lenOctets length

/-- The in-place patch loop at the end of `with_length`:
`self.buf[idx] = b; idx += 1` over the computed length octets. -/
def setBytes (buf : List Nat) (idx : Nat) : List Nat → List Nat
  | [] => buf
  | b :: bs => setBytes (buf.set idx b) (idx + 1) bs

/-- `DERWriter::with_length` of `src/writer/mod.rs`.  Pushes a 3-byte
placeholder, runs the callback (`try!` propagates its failure), then
computes the content length, resizes the placeholder region by
`Vec::drain` / repeated `Vec::insert`, and rewrites it with the final
length octets.  The source recomputes the octets with the same loops as
`write_length`; we reuse `lenOctets` (and its length for
`length_length = 1` resp. `shiftnum / 8 + 2`). -/
def with_length {ε : Type} (cb : List Nat → DerResult ε (List Nat))
    (buf : List Nat) : DerResult ε (List Nat) :=
  let expected_length_length := 3
  let buf1 := buf ++ [255, 255, 255]
  let start_pos := buf1.length
  match cb buf1 with
  | .panic => .panic
  | .error e => .error e
  | .ok buf2 =>
    let length := buf2.length - start_pos
    let length_length := (lenOctets length).length
    if length_length < expected_length_length then
      let diff := expected_length_length - length_length
      let new_start_pos := start_pos - diff
      let buf3 := buf2.take new_start_pos ++ buf2.drop start_pos
      .ok (setBytes buf3 (new_start_pos - length_length) (lenOctets length))
    else if length_length > expected_length_length then
      let diff := length_length - expected_length_length
      let new_start_pos := start_pos + diff
      let buf3 := buf2.take start_pos ++ List.replicate diff 0 ++ buf2.drop start_pos
      .ok (setBytes buf3 (new_start_pos - length_length) (lenOctets length))
    else
      .ok (setBytes buf2 (start_pos - length_length) (lenOctets length))

/-- `DERWriter::write_bool` of `src/writer/mod.rs`. -/
def write_bool (val : Bool) (buf : List Nat) : List Nat :=
  write_length 1 (write_identifier TAG_BOOLEAN .Primitive buf)
    ++ [if val then 255 else 0]

/-- The sign-extension search loop of `write_i64`: from `shiftnum = 56`,
decrement by 8 while `shiftnum > 0` and `val >> (shiftnum-1)` is `0` or
`-1` (arithmetic shift on `i64`, i.e. floor division).  `i64Shift v k` is
that loop started at `shiftnum = 8*k`; the source starts at `k = 7`. -/
def i64Shift (v : Int) : Nat → Nat
  | 0 => 0
  | k + 1 =>
    if v / 2 ^ (8 * (k + 1) - 1) = 0 ∨ v / 2 ^ (8 * (k + 1) - 1) = -1 then
      i64Shift v k
    else 8 * (k + 1)

/-- The byte emission loop of `write_i64`: `push((val >> shiftnum) as u8)`
for `shiftnum = 8*k, 8*(k-1), …, 0` (arithmetic shift, then truncation to
the low 8 bits). -/
def i64Bytes (v : Int) : Nat → List Nat
  | 0 => [(v % 256).toNat]
  | k + 1 => ((v / 2 ^ (8 * (k + 1)) % 256).toNat) :: i64Bytes v k

/-- `DERWriter::write_i64` of `src/writer/mod.rs`. -/
def write_i64 (val : Int) (buf : List Nat) : List Nat :=
  let shiftnum := i64Shift val 7
  write_length (shiftnum / 8 + 1) (write_identifier TAG_INTEGER .Primitive buf)
    ++ i64Bytes val (shiftnum / 8)

/-- The search loop of `write_u64`: from `shiftnum = 64 = 8*8`, decrement
by 8 while `shiftnum > 0` and `val >> (shiftnum-1) == 0`. -/
def u64Shift (v : Nat) : Nat → Nat
  | 0 => 0
  | k + 1 => if v >>> (8 * (k + 1) - 1) = 0 then u64Shift v k else 8 * (k + 1)

/-- `DERWriter::write_u64` of `src/writer/mod.rs`.  When the search loop
stops at `shiftnum == 64` a zero byte is pushed first and `shiftnum`
drops to 56; the remaining emission loop is `lenBytes`. -/
def write_u64 (val : Nat) (buf : List Nat) : List Nat :=
  let shiftnum := u64Shift val 8
  let buf1 := write_length (shiftnum / 8 + 1) (write_identifier TAG_INTEGER .Primitive buf)
  if shiftnum = 64 then buf1 ++ 0 :: lenBytes val 7
  else buf1 ++ lenBytes val (shiftnum / 8)

/-- `DERWriter::write_i32` (`val as i64` is value-preserving). -/
def write_i32 (val : Int) (buf : List Nat) : List Nat := write_i64 val buf

/-- `DERWriter::write_u32` (`val as i64` is value-preserving). -/
def write_u32 (val : Nat) (buf : List Nat) : List Nat := write_i64 val buf

/-- `DERWriter::write_i16` (`val as i64` is value-preserving). -/
def write_i16 (val : Int) (buf : List Nat) : List Nat := write_i64 val buf

/-- `DERWriter::write_u16` (`val as i64` is value-preserving). -/
def write_u16 (val : Nat) (buf : List Nat) : List Nat := write_i64 val buf

/-- `DERWriter::write_i8` (`val as i64` is value-preserving). -/
def write_i8 (val : Int) (buf : List Nat) : List Nat := write_i64 val buf

/-- `DERWriter::write_u8` (`val as i64` is value-preserving). -/
def write_u8 (val : Nat) (buf : List Nat) : List Nat := write_i64 val buf

/-- `DERWriter::write_bytes` of `src/writer/mod.rs`. -/
def write_bytes (bytes : List Nat) (buf : List Nat) : List Nat :=
  write_length bytes.length (write_identifier TAG_OCTETSTRING .Primitive buf) ++ bytes

/-- `DERWriter::write_null` of `src/writer/mod.rs`. -/
def write_null (buf : List Nat) : List Nat :=
  write_length 0 (write_identifier TAG_NULL .Primitive buf)

/-- Modelled from the spec (§4.6): the sign of the external
arbitrary-precision integer (the `num` crate's `Sign`). -/
inductive Sign where
  | noSign
  | plus
  | minus
deriving DecidableEq, Repr

/-- Modelled from the spec (§4.6): the little-endian magnitude byte
sequence of a natural number, with no trailing zero byte (empty for 0;
the zero value itself is handled by the `Sign`/`[0]` cases below). -/
def magLE (n : Nat) : List Nat :=
  if h : n = 0 then [] else n % 256 :: magLE (n / 256)
decreasing_by exact Nat.div_lt_self (Nat.pos_of_ne_zero h) (by omega)

/-- Modelled from the spec (§4.6): `BigInt::to_bytes_le` of the external
`num` crate — a sign plus the little-endian magnitude (`[0]` for zero). -/
def to_bytes_le (v : Int) : Sign × List Nat :=
  if v = 0 then (.noSign, [0])
  else if 0 < v then (.plus, magLE v.toNat)
  else (.minus, magLE (-v).toNat)

/-- Modelled from the spec (§4.6): `BigUint::to_bytes_le` of the external
`num` crate (`[0]` for zero). -/
def to_bytes_le_u (n : Nat) : List Nat :=
  if n = 0 then [0] else magLE n

/-- The bytewise two's-complement loop in the `Minus` arm of
`write_bigint`: `bval = 255 - b; *b = (bval + carry) as u8;
carry = (bval + carry) >> 8`, with initial carry 1. -/
def negBytes (carry : Nat) : List Nat → List Nat
  | [] => []
  | b :: bs => (255 - b + carry) % 256 :: negBytes ((255 - b + carry) / 256) bs

/-- `DERWriter::write_bigint` of `src/writer/mod.rs` (the index
`bytes[byteslen-1]` is modelled by `getLastD`; the list is nonempty in
the `Plus`/`Minus` arms, as the source's `debug_assert!` records). -/
def write_bigint (val : Int) (buf : List Nat) : List Nat :=
  let buf1 := write_identifier TAG_INTEGER .Primitive buf
  match to_bytes_le val with
  | (.noSign, _) => write_length 1 buf1 ++ [0]
  | (.plus, bytes) =>
    let byteslen := bytes.length
    if 128 ≤ bytes.getLastD 0 then
      write_length (byteslen + 1) buf1 ++ 0 :: bytes.reverse
    else
      write_length byteslen buf1 ++ bytes.reverse
  | (.minus, bytes0) =>
    let bytes := negBytes 1 bytes0
    let byteslen := bytes.length
    if bytes.getLastD 0 < 128 then
      write_length (byteslen + 1) buf1 ++ 255 :: bytes.reverse
    else
      write_length byteslen buf1 ++ bytes.reverse

/-- `DERWriter::write_biguint` of `src/writer/mod.rs`. -/
def write_biguint (val : Nat) (buf : List Nat) : List Nat :=
  let buf1 := write_identifier TAG_INTEGER .Primitive buf
  let bytes := to_bytes_le_u val
  if bytes = [0] then write_length 1 buf1 ++ [0]
  else
    let byteslen := bytes.length
    if 128 ≤ bytes.getLastD 0 then
      write_length (byteslen + 1) buf1 ++ 0 :: bytes.reverse
    else
      write_length byteslen buf1 ++ bytes.reverse

/-- `DERWriter::write_sequence` of `src/writer/mod.rs`: identifier, then
`with_length` around the callback (the nested `DERWriterSeq` hands the
same shared buffer to the callback). -/
def write_sequence {ε : Type} (cb : List Nat → DerResult ε (List Nat))
    (buf : List Nat) : DerResult ε (List Nat) :=
  with_length cb (write_identifier TAG_SEQUENCE .Constructed buf)

/-- Lexicographic comparison of byte slices, as Rust's
`<[u8] as Ord>::cmp` (`buf0[1..].cmp(&buf1[1..])` in `write_set`):
elementwise, a strict prefix ordering below the longer slice. -/
def listCmp : List Nat → List Nat → Ordering
  | [], [] => .eq
  | [], _ :: _ => .lt
  | _ :: _, [] => .gt
  | a :: as0, b :: bs0 =>
    if a < b then .lt else if b < a then .gt else listCmp as0 bs0

/-- The sort comparator closure in `write_set`.  The source indexes
`buf[0]` and calls `.position(..).unwrap()`; it is only ever applied to
nonempty, well-formed DER encodings (every member was produced by a
`DERWriter` and checked nonempty).  The unreachable `[]` and
no-terminator cases are totalised to `.eq` resp. the slice length
(`List.findIdx` returns the length when no byte matches). -/
def set_cmp : List Nat → List Nat → Ordering
  | b0 :: t0, b1 :: t1 =>
    let buf00 := b0 &&& 223
    let buf10 := b1 &&& 223
    if buf00 ≠ buf10 ∨ (b0 &&& 31) ≠ 31 then compare buf00 buf10
    else
      let len0 := t0.findIdx (fun x => x &&& 128 = 0)
      let len1 := t1.findIdx (fun x => x &&& 128 = 0)
      if len0 ≠ len1 then compare len0 len1 else listCmp t0 t1
  | _, _ => .eq

/-- Stable insertion of `a` into the already-sorted `acc`: `a` is placed
before the first element strictly greater than it, hence after every
element comparing equal to it. -/
def insertCmp (cmp : List Nat → List Nat → Ordering) (a : List Nat) :
    List (List Nat) → List (List Nat)
  | [] => [a]
  | b :: bs => if cmp a b = .lt then a :: b :: bs else b :: insertCmp cmp a bs

/-- `Vec::sort_by` in `write_set` is a stable sort by a comparator; for a
comparator that (like `set_cmp`) is comparison by a key, the stable sort
of a list is unique, so it is modelled by this stable insertion sort. -/
def sortByCmp (cmp : List Nat → List Nat → Ordering) (bufs : List (List Nat)) :
    List (List Nat) :=
  bufs.foldl (fun acc a => insertCmp cmp a acc) []

/-- `DERWriter::write_set` of `src/writer/mod.rs`.  The callback fills the
`DERWriterSet`'s fresh list of member buffers (each `next()` pushes a new
empty buffer); afterwards `assert!(buf.len() > 0)` panics on any empty
member, the members are stable-sorted by the comparator, and
identifier, total length and the sorted members are appended. -/
def write_set {ε : Type} (cb : List (List Nat) → DerResult ε (List (List Nat)))
    (buf : List Nat) : DerResult ε (List Nat) :=
  match cb [] with
  | .panic => .panic
  | .error e => .error e
  | .ok bufs =>
    if bufs.all (fun b => 0 < b.length) then
      let sorted := sortByCmp set_cmp bufs
      let bufs_len := (sorted.map List.length).foldl (fun x y => x + y) 0
      .ok (write_length bufs_len (write_identifier TAG_SET .Constructed buf)
            ++ sorted.flatten)
    else .panic

/-- `construct_der` of `src/writer/mod.rs`: allocate an empty buffer, run
the callback (`try!` propagates its failure) and return the buffer. -/
def construct_der {ε : Type} (cb : List Nat → DerResult ε (List Nat)) :
    DerResult ε (List Nat) :=
  match cb [] with
  | .panic => .panic
  | .error e => .error e
  | .ok buf => .ok buf

/-- `construct_der_seq` of `src/writer/mod.rs`: identical buffer
behaviour to `construct_der` (the callback receives the sequence writer
over the same fresh buffer). -/
def construct_der_seq {ε : Type} (cb : List Nat → DerResult ε (List Nat)) :
    DerResult ε (List Nat) :=
  match cb [] with
  | .panic => .panic
  | .error e => .error e
  | .ok buf => .ok buf

/-- ASN.1 values used to drive the writer through arbitrarily nested
sequences (the shapes the claims quantify over). -/
inductive ASN1Value where
  | boolVal (b : Bool)
  | intVal (v : Int)
  | bytesVal (bs : List Nat)
  | nullVal
  | seqVal (xs : List ASN1Value)
deriving Repr

mutual

/-- Encode one ASN.1 value through the writer operations (the callback a
user would write with `DERWriter`). -/
def encodeValue {ε : Type} : ASN1Value → List Nat → DerResult ε (List Nat)
  | .boolVal b, buf => .ok (write_bool b buf)
  | .intVal v, buf => .ok (write_i64 v buf)
  | .bytesVal bs, buf => .ok (write_bytes bs buf)
  | .nullVal, buf => .ok (write_null buf)
  | .seqVal xs, buf => write_sequence (fun b => encodeSeq xs b) buf

/-- Encode successive values via `DERWriterSeq::next` (each member writes
onto the same shared buffer; `try!` propagates failures). -/
def encodeSeq {ε : Type} : List ASN1Value → List Nat → DerResult ε (List Nat)
  | [], buf => .ok buf
  | x :: xs, buf =>
    match encodeValue x buf with
    | .panic => .panic
    | .error e => .error e
    | .ok buf2 => encodeSeq xs buf2

end

mutual

/-- The DER octets of a value, written compositionally: identifier
octets, then length octets for the content byte count, then the content
— with a sequence's content the gapless concatenation of its members'
octets.  This is the specification-side ground truth `encodeValue` is
proved to produce. -/
def derBytes : ASN1Value → List Nat
  | .boolVal b => write_bool b []
  | .intVal v => write_i64 v []
  | .bytesVal bs => write_bytes bs []
  | .nullVal => write_null []
  | .seqVal xs => 48 :: (lenOctets (derList xs).length ++ derList xs)

/-- Concatenated DER octets of a list of values. -/
def derList : List ASN1Value → List Nat
  | [] => []
  | x :: xs => derBytes x ++ derList xs

end

/-! ## Decoders used to state the claims -/

/-- Big-endian base-256 value of a byte list. -/
def beVal (bs : List Nat) : Nat := bs.foldl (fun a b => 256 * a + b) 0

/-- Signed (two's-complement) value of a nonempty big-endian byte list. -/
def beSigned (bs : List Nat) : Int :=
  if 2 ^ (8 * bs.length - 1) ≤ beVal bs then (beVal bs : Int) - 2 ^ (8 * bs.length)
  else (beVal bs : Int)

/-- Value of a base-128 continuation (the low 7 bits of each group,
most significant first). -/
def b128Val (gs : List Nat) : Nat := gs.foldl (fun a g => 128 * a + g % 128) 0

/-- Little-endian base-256 value of a byte list. -/
def valLE : List Nat → Nat
  | [] => 0
  | b :: bs => b + 256 * valLE bs

/-- The fixed-width little-endian base-256 bytes of a number. -/
def leBytesN (u : Nat) : Nat → List Nat
  | 0 => []
  | k + 1 => u % 256 :: leBytesN (u / 256) k

/-- The spec-side content bytes of an unsigned INTEGER (§4.5/§4.6): the
minimal big-endian magnitude, with a `0x00` byte prepended when the most
significant bit of its first byte is set (and `[0]` for zero). -/
def sigContent (n : Nat) : List Nat :=
  match (magLE n).reverse with
  | [] => [0]
  | b :: bs => if 128 ≤ b then 0 :: b :: bs else b :: bs

/-- The SET member comparator as the spec states it (§4.8): compare the
first bytes with bit 0x20 masked out, ascending when they differ; when
equal and the low 5 bits are not all set, the members compare equal;
when the low 5 bits are all set, compare the base-128 continuation
lengths, then all bytes after the first lexicographically. -/
def spec_set_cmp : List Nat → List Nat → Ordering
  | b0 :: t0, b1 :: t1 =>
    if b0 &&& 223 ≠ b1 &&& 223 then compare (b0 &&& 223) (b1 &&& 223)
    else if b0 &&& 31 ≠ 31 then Ordering.eq
    else
      let len0 := t0.findIdx (fun x => x &&& 128 = 0)
      let len1 := t1.findIdx (fun x => x &&& 128 = 0)
      if len0 ≠ len1 then compare len0 len1 else listCmp t0 t1
  | _, _ => Ordering.eq

/-- Decode definite-form DER length octets (the reverse of §4.3):
a single byte below 128, or `0x80|N` followed by exactly `N` bytes. -/
def decodeLen : List Nat → Option Nat
  | [] => none
  | b :: bs =>
    if b < 128 then (if bs = [] then some b else none)
    else if bs.length = b - 128 then some (beVal bs) else none

/-! ## Arithmetic helpers -/

theorem lor128_eq_add {x : Nat} (h : x < 128) : 128 ||| x = 128 + x := by
  have h2 := Nat.mul_add_lt_is_or (i := 7) h 1
  norm_num at h2
  omega

theorem two_pow_pred (n : Nat) (h : 1 ≤ n) : 2 ^ n = 2 * 2 ^ (n - 1) := by
  conv_lhs => rw [show n = (n - 1) + 1 by omega]
  rw [pow_succ']

theorem two_pow_pred_int (n : Nat) (h : 1 ≤ n) : (2:Int) ^ n = 2 * 2 ^ (n - 1) := by
  conv_lhs => rw [show n = (n - 1) + 1 by omega]
  rw [pow_succ']

theorem shiftRight_zero_iff {v n : Nat} : v >>> n = 0 ↔ v < 2 ^ n := by
  rw [Nat.shiftRight_eq_div_pow]
  exact Nat.div_eq_zero_iff (Nat.pos_pow_of_pos n (by norm_num))

theorem mod_mul_decomp (a b c : Nat) (hb : 0 < b) (hc : 0 < c) :
    a % (b * c) = b * (a / b % c) + a % b := by
  have key : a = b * c * (a / b / c) + (b * (a / b % c) + a % b) := by
    conv_lhs => rw [← Nat.div_add_mod a b, ← Nat.div_add_mod (a / b) c]
    ring
  have hu : a / b % c < c := Nat.mod_lt _ hc
  have hr : a % b < b := Nat.mod_lt _ hb
  have hlt : b * (a / b % c) + a % b < b * c := by nlinarith
  conv_lhs => rw [key]
  rw [Nat.mul_add_mod, Nat.mod_eq_of_lt hlt]

theorem emod_mul_decomp (a : Int) (b c : Int) (hb : 0 < b) (hc : 0 < c) :
    a % (b * c) = b * (a / b % c) + a % b := by
  have key : a = b * c * (a / b / c) + (b * (a / b % c) + a % b) := by
    conv_lhs => rw [← Int.ediv_add_emod a b]
    conv_lhs => rw [← Int.ediv_add_emod (a / b) c]
    ring
  have hu0 : 0 ≤ a / b % c := Int.emod_nonneg _ (by omega)
  have hu : a / b % c < c := Int.emod_lt_of_pos _ hc
  have hr0 : 0 ≤ a % b := Int.emod_nonneg _ (by omega)
  have hr : a % b < b := Int.emod_lt_of_pos _ hb
  have hlt : b * (a / b % c) + a % b < b * c := by nlinarith
  have hge : 0 ≤ b * (a / b % c) + a % b := by
    have := mul_nonneg hb.le hu0
    omega
  conv_lhs => rw [key, add_comm]
  rw [Int.add_mul_emod_self_left, Int.emod_eq_of_lt hge hlt]

/-- For a positive divisor, a quotient of `0` or `-1` says exactly that the
dividend fits in the window `[-b, b)` — the meaning of the i64
sign-extension test `val >> (shiftnum-1) == 0 || val >> (shiftnum-1) == -1`. -/
theorem ediv_mem_pair_iff {v b : Int} (hb : 0 < b) :
    (v / b = 0 ∨ v / b = -1) ↔ (-b ≤ v ∧ v < b) := by
  constructor
  · intro h
    have hmod0 : 0 ≤ v % b := Int.emod_nonneg _ (by omega)
    have hmod1 : v % b < b := Int.emod_lt_of_pos _ hb
    have hsum := Int.ediv_add_emod v b
    rcases h with h | h <;> rw [h] at hsum <;> omega
  · rintro ⟨h1, h2⟩
    rcases le_or_lt 0 v with hv | hv
    · exact Or.inl (Int.ediv_eq_zero_of_lt hv h2)
    · right
      have key : (v + 1 * b) / b = v / b + 1 := Int.add_mul_ediv_right v 1 (by omega)
      have h0 : (v + 1 * b) / b = 0 := Int.ediv_eq_zero_of_lt (by omega) (by omega)
      omega

/-! ## Characterizations of the shift-search loops -/

theorem lenShiftAux_spec (v : Nat) :
    ∀ f k, k ≤ f → 2 ^ (8 * k) ≤ v → v < 2 ^ (8 * k + 8) → lenShiftAux v f = 8 * k := by
  intro f
  induction f with
  | zero =>
    intro k hk _ _
    interval_cases k
    rfl
  | succ f ih =>
    intro k hk h1 h2
    rw [lenShiftAux]
    rcases Nat.lt_or_ge k (f + 1) with hkf | hkf
    · have hsm : 8 * k + 8 ≤ 8 * (f + 1) := by omega
      have hz : v >>> (8 * (f + 1)) = 0 := by
        rw [shiftRight_zero_iff]
        exact h2.trans_le (Nat.pow_le_pow_right (by norm_num) hsm)
      simp only [hz, if_pos rfl]
      exact ih k (by omega) h1 h2
    · have hk1 : k = f + 1 := by omega
      subst hk1
      have hnz : v >>> (8 * (f + 1)) ≠ 0 := by
        rw [Ne, shiftRight_zero_iff]
        omega
    -- the loop stops immediately: the shifted value is nonzero
      simp [hnz]

theorem u64Shift_spec (v : Nat) :
    ∀ f k, k ≤ f → 2 ^ (8 * k) ≤ 2 * v → 2 * v < 2 ^ (8 * k + 8) → u64Shift v f = 8 * k := by
  intro f
  induction f with
  | zero =>
    intro k hk _ _
    interval_cases k
    rfl
  | succ f ih =>
    intro k hk h1 h2
    rw [u64Shift]
    rcases Nat.lt_or_ge k (f + 1) with hkf | hkf
    · have hz : v >>> (8 * (f + 1) - 1) = 0 := by
        rw [shiftRight_zero_iff]
        have hsm : 8 * k + 8 ≤ 8 * (f + 1) := by omega
        have : 2 * v < 2 * 2 ^ (8 * (f + 1) - 1) := by
          calc 2 * v < 2 ^ (8 * k + 8) := h2
          _ ≤ 2 ^ (8 * (f + 1)) := Nat.pow_le_pow_right (by norm_num) hsm
          _ = 2 * 2 ^ (8 * (f + 1) - 1) := two_pow_pred _ (by omega)
        omega
      simp only [hz, if_pos rfl]
      exact ih k (by omega) h1 h2
    · have hk1 : k = f + 1 := by omega
      subst hk1
      have hnz : v >>> (8 * (f + 1) - 1) ≠ 0 := by
        rw [Ne, shiftRight_zero_iff]
        have he := two_pow_pred (8 * (f + 1)) (by omega)
        omega
      simp [hnz]

theorem findShift7_spec (tn : Nat) :
    ∀ f k, k ≤ f → 2 ^ (7 * k) ≤ tn → tn < 2 ^ (7 * k + 7) → findShift7 tn f = 7 * k := by
  intro f
  induction f with
  | zero =>
    intro k hk _ _
    interval_cases k
    rfl
  | succ f ih =>
    intro k hk h1 h2
    rw [findShift7]
    rcases Nat.lt_or_ge k (f + 1) with hkf | hkf
    · have hsm : 7 * k + 7 ≤ 7 * (f + 1) := by omega
      have hz : tn >>> (7 * (f + 1)) = 0 := by
        rw [shiftRight_zero_iff]
        exact h2.trans_le (Nat.pow_le_pow_right (by norm_num) hsm)
      simp only [hz, if_pos rfl]
      exact ih k (by omega) h1 h2
    · have hk1 : k = f + 1 := by omega
      subst hk1
      have hnz : tn >>> (7 * (f + 1)) ≠ 0 := by
        rw [Ne, shiftRight_zero_iff]
        omega
      simp [hnz]

theorem i64Shift_spec (v : Int) :
    ∀ f k, k ≤ f →
      (k = 0 ∨ (2:Int) ^ (8 * k) ≤ 2 * v + 1 ∨ 2 * v + 1 < -((2:Int) ^ (8 * k))) →
      -((2:Int) ^ (8 * k + 8)) ≤ 2 * v + 1 → 2 * v + 1 < 2 ^ (8 * k + 8) →
      i64Shift v f = 8 * k := by
  intro f
  induction f with
  | zero =>
    intro k hk _ _ _
    interval_cases k
    rfl
  | succ f ih =>
    intro k hk h1 h2 h3
    rw [i64Shift]
    have hpow : (0:Int) < 2 ^ (8 * (f + 1) - 1) := by positivity
    rcases Nat.lt_or_ge k (f + 1) with hkf | hkf
    · have hc : v / 2 ^ (8 * (f + 1) - 1) = 0 ∨ v / 2 ^ (8 * (f + 1) - 1) = -1 := by
        rw [ediv_mem_pair_iff hpow]
        have hsm : 8 * k + 8 ≤ 8 * (f + 1) - 1 + 1 := by omega
        have hmono : (2:Int) ^ (8 * k + 8) ≤ 2 ^ (8 * (f + 1) - 1 + 1) :=
          pow_le_pow_right₀ (by norm_num) hsm
        have he : (2:Int) ^ (8 * (f + 1) - 1 + 1) = 2 * 2 ^ (8 * (f + 1) - 1) := by
          rw [pow_succ]
          ring
        omega
      rw [if_pos hc]
      exact ih k (by omega) h1 h2 h3
    · have hk1 : k = f + 1 := by omega
      subst hk1
      have hc : ¬(v / 2 ^ (8 * (f + 1) - 1) = 0 ∨ v / 2 ^ (8 * (f + 1) - 1) = -1) := by
        rw [ediv_mem_pair_iff hpow]
        have he : (2:Int) ^ (8 * (f + 1) - 1 + 1) = 2 * 2 ^ (8 * (f + 1) - 1) := by
          rw [pow_succ]
          ring
        have he2 : 8 * (f + 1) - 1 + 1 = 8 * (f + 1) := by omega
        rw [he2] at he
        omega
      simp [hc]

/-! ## Existence of the byte / group windows the loops stop in -/

theorem exists_k_byte (v : Nat) (h1 : 1 ≤ v) (h64 : v < 2 ^ 64) :
    ∃ k, k ≤ 7 ∧ 2 ^ (8 * k) ≤ v ∧ v < 2 ^ (8 * k + 8) := by
  refine ⟨Nat.log 2 v / 8, ?_, ?_, ?_⟩
  · have hlog : Nat.log 2 v < 64 := Nat.log_lt_of_lt_pow (by omega) h64
    omega
  · calc 2 ^ (8 * (Nat.log 2 v / 8)) ≤ 2 ^ Nat.log 2 v :=
        Nat.pow_le_pow_right (by norm_num) (by omega)
    _ ≤ v := Nat.pow_log_le_self 2 (by omega)
  · have hv : v < 2 ^ (Nat.log 2 v + 1) := Nat.lt_pow_succ_log_self (by norm_num) v
    exact hv.trans_le (Nat.pow_le_pow_right (by norm_num) (by omega))

theorem exists_k_group (tn : Nat) (h1 : 1 ≤ tn) (h64 : tn < 2 ^ 64) :
    ∃ k, k ≤ 9 ∧ 2 ^ (7 * k) ≤ tn ∧ tn < 2 ^ (7 * k + 7) := by
  refine ⟨Nat.log 2 tn / 7, ?_, ?_, ?_⟩
  · have hlog : Nat.log 2 tn < 64 := Nat.log_lt_of_lt_pow (by omega) h64
    omega
  · calc 2 ^ (7 * (Nat.log 2 tn / 7)) ≤ 2 ^ Nat.log 2 tn :=
        Nat.pow_le_pow_right (by norm_num) (by omega)
    _ ≤ tn := Nat.pow_log_le_self 2 (by omega)
  · have hv : tn < 2 ^ (Nat.log 2 tn + 1) := Nat.lt_pow_succ_log_self (by norm_num) tn
    exact hv.trans_le (Nat.pow_le_pow_right (by norm_num) (by omega))

theorem signed_window (v : Int) (h0 : -(2:Int) ^ 63 ≤ v) (h1 : v < 2 ^ 63) :
    ∃ k, k ≤ 7 ∧
      (k = 0 ∨ (2:Int) ^ (8 * k) ≤ 2 * v + 1 ∨ 2 * v + 1 < -((2:Int) ^ (8 * k))) ∧
      -((2:Int) ^ (8 * k + 8)) ≤ 2 * v + 1 ∧ 2 * v + 1 < 2 ^ (8 * k + 8) ∧
      (2 * v + 1).natAbs < 2 ^ (8 * k + 8) ∧ 2 ^ (8 * k) ≤ (2 * v + 1).natAbs := by
  have e63 : (2:Int) ^ 63 = 9223372036854775808 := by norm_num
  have e64 : (2:Nat) ^ 64 = 18446744073709551616 := by norm_num
  have ha1 : 1 ≤ (2 * v + 1).natAbs := by omega
  have ha64 : (2 * v + 1).natAbs < 2 ^ 64 := by omega
  obtain ⟨k, hk7, hka, hkb⟩ := exists_k_byte (2 * v + 1).natAbs ha1 ha64
  have hc1 : ((2:Nat) ^ (8 * k) : Int) = (2:Int) ^ (8 * k) := by push_cast; ring
  have hc2 : ((2:Nat) ^ (8 * k + 8) : Int) = (2:Int) ^ (8 * k + 8) := by push_cast; ring
  have hka' : (2:Int) ^ (8 * k) ≤ ((2 * v + 1).natAbs : Int) := by
    rw [← hc1]
    exact_mod_cast hka
  have hkb' : ((2 * v + 1).natAbs : Int) < (2:Int) ^ (8 * k + 8) := by
    rw [← hc2]
    exact_mod_cast hkb
  refine ⟨k, hk7, ?_, by omega, by omega, hkb, hka⟩
  rcases Nat.eq_zero_or_pos k with hk0 | hkpos
  · exact Or.inl hk0
  · right
    have hev := two_pow_pred_int (8 * k) (by omega)
    omega

/-! ## Byte-list lemmas -/

theorem lenBytes_length (v k : Nat) : (lenBytes v k).length = k + 1 := by
  induction k with
  | zero => rfl
  | succ k ih => simp [lenBytes, ih]

theorem lenBytes_snoc (v k : Nat) :
    lenBytes v (k + 1) = lenBytes (v / 256) k ++ [v % 256] := by
  induction k generalizing v with
  | zero =>
    simp only [lenBytes]
    rw [Nat.shiftRight_eq_div_pow]
    norm_num
  | succ k ih =>
    rw [show lenBytes v (k + 1 + 1) =
        ((v >>> (8 * (k + 1 + 1))) % 256) :: lenBytes v (k + 1) from rfl]
    rw [show lenBytes (v / 256) (k + 1) =
        (((v / 256) >>> (8 * (k + 1))) % 256) :: lenBytes (v / 256) k from rfl]
    rw [ih v]
    have hhead : v >>> (8 * (k + 1 + 1)) = (v / 256) >>> (8 * (k + 1)) := by
      rw [Nat.shiftRight_eq_div_pow, Nat.shiftRight_eq_div_pow, Nat.div_div_eq_div_mul]
      rw [show (256:Nat) * 2 ^ (8 * (k + 1)) = 2 ^ (8 * (k + 1 + 1)) by
        rw [show (256:Nat) = 2 ^ 8 by norm_num, ← pow_add]
        ring_nf]
    rw [hhead]
    simp

theorem foldl_base_acc (m : Nat) (bs : List Nat) (g : Nat → Nat) (a : Nat) :
    bs.foldl (fun x b => m * x + g b) a =
      a * m ^ bs.length + bs.foldl (fun x b => m * x + g b) 0 := by
  induction bs generalizing a with
  | nil => simp
  | cons b bs ih =>
    simp only [List.foldl_cons, List.length_cons]
    rw [ih (m * a + g b), ih (m * 0 + g b)]
    ring

theorem beVal_cons (b : Nat) (bs : List Nat) :
    beVal (b :: bs) = b * 256 ^ bs.length + beVal bs := by
  unfold beVal
  simp only [List.foldl_cons, Nat.mul_zero, Nat.zero_add]
  exact foldl_base_acc 256 bs (fun x => x) b

theorem b128Val_cons (b : Nat) (bs : List Nat) :
    b128Val (b :: bs) = (b % 128) * 128 ^ bs.length + b128Val bs := by
  unfold b128Val
  simp only [List.foldl_cons, Nat.mul_zero, Nat.zero_add]
  exact foldl_base_acc 128 bs (fun x => x % 128) (b % 128)

theorem pow256_eq (k : Nat) : (256:Nat) ^ k = 2 ^ (8 * k) := by
  rw [show (256:Nat) = 2 ^ 8 by norm_num, ← pow_mul]

theorem beVal_lenBytes (v k : Nat) : beVal (lenBytes v k) = v % 2 ^ (8 * (k + 1)) := by
  induction k with
  | zero =>
    show beVal [v % 256] = v % 2 ^ (8 * (0 + 1))
    unfold beVal
    norm_num
  | succ k ih =>
    rw [show lenBytes v (k + 1) = ((v >>> (8 * (k + 1))) % 256) :: lenBytes v k from rfl]
    rw [beVal_cons, lenBytes_length, ih]
    rw [Nat.shiftRight_eq_div_pow, pow256_eq]
    have hd := mod_mul_decomp v (2 ^ (8 * (k + 1))) 256 (by positivity) (by norm_num)
    rw [show (2:Nat) ^ (8 * (k + 1)) * 256 = 2 ^ (8 * (k + 1 + 1)) by
      rw [show (256:Nat) = 2 ^ 8 by norm_num, ← pow_add]; ring_nf] at hd
    rw [hd]
    ring

theorem leBytesN_length (u k : Nat) : (leBytesN u k).length = k := by
  induction k generalizing u with
  | zero => rfl
  | succ k ih => simp [leBytesN, ih]

theorem leBytesN_reverse (k : Nat) :
    ∀ u, (leBytesN u (k + 1)).reverse = lenBytes u k := by
  induction k with
  | zero =>
    intro u
    rfl
  | succ k ih =>
    intro u
    rw [show leBytesN u (k + 1 + 1) = u % 256 :: leBytesN (u / 256) (k + 1) from rfl]
    rw [List.reverse_cons, ih (u / 256), ← lenBytes_snoc]

theorem leBytesN_getLastD (k : Nat) :
    ∀ u d, (leBytesN u (k + 1)).getLastD d = u / 256 ^ k % 256 := by
  induction k with
  | zero =>
    intro u d
    simp [leBytesN]
  | succ k ih =>
    intro u d
    rw [show leBytesN u (k + 1 + 1) = u % 256 :: leBytesN (u / 256) (k + 1) from rfl]
    rw [List.getLastD_cons, ih (u / 256) (u % 256), Nat.div_div_eq_div_mul]
    congr 2
    rw [pow_succ]
    ring

theorem leBytesN_lt (k : Nat) : ∀ u, ∀ b ∈ leBytesN u k, b < 256 := by
  induction k with
  | zero => intro u b hb; simp [leBytesN] at hb
  | succ k ih =>
    intro u b hb
    rw [show leBytesN u (k + 1) = u % 256 :: leBytesN (u / 256) k from rfl] at hb
    rcases List.mem_cons.mp hb with h | h
    · subst h; exact Nat.mod_lt _ (by norm_num)
    · exact ih (u / 256) b h

theorem valLE_leBytesN (k : Nat) : ∀ u, valLE (leBytesN u k) = u % 256 ^ k := by
  induction k with
  | zero => intro u; simp [leBytesN, valLE]; omega
  | succ k ih =>
    intro u
    rw [show leBytesN u (k + 1) = u % 256 :: leBytesN (u / 256) k from rfl]
    rw [show valLE (u % 256 :: leBytesN (u / 256) k)
        = u % 256 + 256 * valLE (leBytesN (u / 256) k) from rfl]
    rw [ih (u / 256)]
    have hd := mod_mul_decomp u 256 (256 ^ k) (by norm_num) (by positivity)
    rw [← pow_succ'] at hd
    omega

theorem valLE_lt (bs : List Nat) (h : ∀ b ∈ bs, b < 256) : valLE bs < 256 ^ bs.length := by
  induction bs with
  | nil => simp [valLE]
  | cons b bs ih =>
    have hb : b < 256 := h b (List.mem_cons_self b bs)
    have ht := ih (fun x hx => h x (List.mem_cons_of_mem b hx))
    rw [show valLE (b :: bs) = b + 256 * valLE bs from rfl]
    rw [show (b :: bs).length = bs.length + 1 from rfl, pow_succ']
    omega

/-- `magLE n` is the fixed-width little-endian bytes at the minimal width. -/
theorem magLE_spec : ∀ n, 1 ≤ n →
    ∃ L, 1 ≤ L ∧ magLE n = leBytesN n L ∧ 256 ^ (L - 1) ≤ n ∧ n < 256 ^ L := by
  intro n
  induction n using Nat.strong_induction_on with
  | _ n ih =>
    intro hn
    rw [magLE]
    rw [dif_neg (by omega)]
    rcases Nat.lt_or_ge n 256 with hlt | hge
    · refine ⟨1, le_refl 1, ?_, by simpa using hn, by simpa using hlt⟩
      have hq : n / 256 = 0 := Nat.div_eq_of_lt hlt
      rw [hq, show magLE 0 = [] by rw [magLE]; simp]
      rfl
    · have hq1 : 1 ≤ n / 256 := (Nat.one_le_div_iff (by norm_num)).mpr hge
      have hqlt : n / 256 < n := Nat.div_lt_self (by omega) (by norm_num)
      obtain ⟨L, hL1, hLe, hLlo, hLhi⟩ := ih (n / 256) hqlt hq1
      refine ⟨L + 1, by omega, ?_, ?_, ?_⟩
      · rw [hLe]
        rfl
      · have : 256 ^ L = 256 ^ (L - 1) * 256 := by
          conv_lhs => rw [show L = (L - 1) + 1 by omega]
          rw [pow_succ]
        calc 256 ^ (L + 1 - 1) = 256 ^ (L - 1) * 256 := this
        _ ≤ (n / 256) * 256 := by
            have := Nat.mul_le_mul_right 256 hLlo
            omega
        _ ≤ n := by
            have := Nat.div_mul_le_self n 256
            omega
      · have h1 : n < (n / 256 + 1) * 256 := by omega
        calc n < (n / 256 + 1) * 256 := h1
        _ ≤ 256 ^ L * 256 := by
            have : n / 256 + 1 ≤ 256 ^ L := hLhi
            exact Nat.mul_le_mul_right 256 this
        _ = 256 ^ (L + 1) := (pow_succ 256 L).symm

theorem magLE_bytes_lt (n : Nat) : ∀ b ∈ magLE n, b < 256 := by
  rcases Nat.eq_zero_or_pos n with h0 | hpos
  · subst h0
    rw [show magLE 0 = [] by rw [magLE]; simp]
    intro b hb
    simp at hb
  · obtain ⟨L, _, hLe, _, _⟩ := magLE_spec n hpos
    rw [hLe]
    exact leBytesN_lt L n

theorem valLE_magLE (n : Nat) (hn : 1 ≤ n) : valLE (magLE n) = n := by
  obtain ⟨L, _, hLe, _, hhi⟩ := magLE_spec n hn
  rw [hLe, valLE_leBytesN]
  exact Nat.mod_eq_of_lt hhi

/-- The bytewise-complement-with-carry loop computes, in fixed width, the
little-endian bytes of `(2^(8·len) - 1 - value) + carry`. -/
theorem negBytes_eq : ∀ (bs : List Nat) (c : Nat), (∀ b ∈ bs, b < 256) → c ≤ 1 →
    negBytes c bs = leBytesN (256 ^ bs.length - 1 - valLE bs + c) bs.length := by
  intro bs
  induction bs with
  | nil =>
    intro c _ _
    rfl
  | cons b t ih =>
    intro c hlt hc
    have hb : b < 256 := hlt b (List.mem_cons_self b t)
    have hv : valLE t < 256 ^ t.length :=
      valLE_lt t (fun x hx => hlt x (List.mem_cons_of_mem b hx))
    rw [show negBytes c (b :: t)
        = (255 - b + c) % 256 :: negBytes ((255 - b + c) / 256) t from rfl]
    rw [show (b :: t).length = t.length + 1 from rfl]
    rw [show valLE (b :: t) = b + 256 * valLE t from rfl]
    rw [show leBytesN (256 ^ (t.length + 1) - 1 - (b + 256 * valLE t) + c) (t.length + 1)
        = (256 ^ (t.length + 1) - 1 - (b + 256 * valLE t) + c) % 256
          :: leBytesN ((256 ^ (t.length + 1) - 1 - (b + 256 * valLE t) + c) / 256)
              t.length from rfl]
    have hpow2 : (256:Nat) ^ (t.length + 1) = 256 * 256 ^ t.length := by rw [pow_succ']
    congr 1
    · omega
    · rw [ih ((255 - b + c) / 256) (fun x hx => hlt x (List.mem_cons_of_mem b hx)) (by omega)]
      congr 1
      omega

theorem i64Bytes_length (v : Int) (k : Nat) : (i64Bytes v k).length = k + 1 := by
  induction k with
  | zero => rfl
  | succ k ih => simp [i64Bytes, ih]

theorem i64Bytes_congr (v w : Int) :
    ∀ k, (∀ j, j ≤ k → v / 2 ^ (8 * j) % 256 = w / 2 ^ (8 * j) % 256) →
      i64Bytes v k = i64Bytes w k := by
  intro k
  induction k with
  | zero =>
    intro h
    have h0 := h 0 (le_refl 0)
    norm_num at h0
    simp [i64Bytes, h0]
  | succ k ih =>
    intro h
    have hh := h (k + 1) (le_refl (k + 1))
    rw [show i64Bytes v (k + 1)
        = ((v / 2 ^ (8 * (k + 1)) % 256).toNat) :: i64Bytes v k from rfl]
    rw [show i64Bytes w (k + 1)
        = ((w / 2 ^ (8 * (k + 1)) % 256).toNat) :: i64Bytes w k from rfl]
    rw [hh, ih (fun j hj => h j (by omega))]

theorem cast_byte_div_mod (a m : Nat) :
    (((a:Int) / 2 ^ m % 256).toNat) = a >>> m % 256 := by
  have h2 : ((2:Int) ^ m) = ((2 ^ m : Nat) : Int) := by push_cast; ring
  rw [h2, ← Int.ofNat_ediv, Nat.shiftRight_eq_div_pow]
  omega

theorem i64Bytes_nonneg (v : Int) (hv : 0 ≤ v) :
    ∀ k, i64Bytes v k = lenBytes v.toNat k := by
  intro k
  induction k with
  | zero =>
    show [(v % 256).toNat] = [v.toNat % 256]
    have h : (v % 256).toNat = v.toNat % 256 := by omega
    rw [h]
  | succ k ih =>
    rw [show i64Bytes v (k + 1)
        = ((v / 2 ^ (8 * (k + 1)) % 256).toNat) :: i64Bytes v k from rfl]
    rw [show lenBytes v.toNat (k + 1)
        = ((v.toNat >>> (8 * (k + 1))) % 256) :: lenBytes v.toNat k from rfl]
    rw [ih]
    have hva : v = ((v.toNat : Nat) : Int) := by omega
    rw [show v / 2 ^ (8 * (k + 1)) % 256 = (v.toNat : Int) / 2 ^ (8 * (k + 1)) % 256 by
      rw [← hva]]
    rw [cast_byte_div_mod]

theorem beVal_i64Bytes (v : Int) :
    ∀ k, (beVal (i64Bytes v k) : Int) = v % 2 ^ (8 * (k + 1)) := by
  intro k
  induction k with
  | zero =>
    show ((beVal [(v % 256).toNat] : Nat) : Int) = v % 2 ^ (8 * (0 + 1))
    unfold beVal
    simp only [List.foldl_cons, List.foldl_nil, Nat.mul_zero, Nat.zero_add]
    rw [Int.toNat_of_nonneg (Int.emod_nonneg v (by norm_num))]
    norm_num
  | succ k ih =>
    rw [show i64Bytes v (k + 1)
        = ((v / 2 ^ (8 * (k + 1)) % 256).toNat) :: i64Bytes v k from rfl]
    rw [beVal_cons, i64Bytes_length]
    push_cast
    rw [ih]
    rw [Int.toNat_of_nonneg (Int.emod_nonneg _ (by positivity))]
    have hd := emod_mul_decomp v (2 ^ (8 * (k + 1))) 256 (by positivity) (by norm_num)
    rw [show (2:Int) ^ (8 * (k + 1)) * 256 = 2 ^ (8 * (k + 1 + 1)) by
      rw [show (256:Int) = 2 ^ 8 by norm_num, ← pow_add]
      ring_nf] at hd
    rw [hd]
    have hc : (256:Int) ^ (k + 1) = (2:Int) ^ (8 * (k + 1)) := by
      rw [show ((256:Int)) = 2 ^ 8 by norm_num, ← pow_mul]
    rw [hc]
    ring

theorem pushGroups_length (tn k : Nat) : (pushGroups tn k).length = k + 1 := by
  induction k with
  | zero => rfl
  | succ k ih => simp [pushGroups, ih]

theorem lor128_mod {x : Nat} (h : x < 128) : (128 ||| x) % 128 = x := by
  rw [lor128_eq_add h]
  omega

theorem pow128_eq (k : Nat) : (128:Nat) ^ k = 2 ^ (7 * k) := by
  rw [show (128:Nat) = 2 ^ 7 by norm_num, ← pow_mul]

theorem b128Val_pushGroups (tn : Nat) :
    ∀ k, b128Val (pushGroups tn k) = tn % 2 ^ (7 * (k + 1)) := by
  intro k
  induction k with
  | zero =>
    show b128Val [tn % 128] = tn % 2 ^ (7 * (0 + 1))
    unfold b128Val
    simp only [List.foldl_cons, List.foldl_nil, Nat.mul_zero, Nat.zero_add]
    have h : (2:Nat) ^ (7 * (0 + 1)) = 128 := by norm_num
    rw [h]
    omega
  | succ k ih =>
    rw [show pushGroups tn (k + 1)
        = (128 ||| ((tn >>> (7 * (k + 1))) % 128)) :: pushGroups tn k from rfl]
    rw [b128Val_cons, pushGroups_length, ih]
    rw [lor128_mod (Nat.mod_lt _ (by norm_num))]
    rw [Nat.shiftRight_eq_div_pow, pow128_eq]
    have hd := mod_mul_decomp tn (2 ^ (7 * (k + 1))) 128 (by positivity) (by norm_num)
    rw [show (2:Nat) ^ (7 * (k + 1)) * 128 = 2 ^ (7 * (k + 1 + 1)) by
      rw [show (128:Nat) = 2 ^ 7 by norm_num, ← pow_add]
      ring_nf] at hd
    rw [hd]
    ring

theorem pushGroups_getLastD (tn : Nat) : ∀ k d, (pushGroups tn k).getLastD d = tn % 128 := by
  intro k
  induction k with
  | zero => intro d; rfl
  | succ k ih =>
    intro d
    rw [show pushGroups tn (k + 1)
        = (128 ||| ((tn >>> (7 * (k + 1))) % 128)) :: pushGroups tn k from rfl]
    rw [List.getLastD_cons]
    exact ih _

theorem pushGroups_ne_nil (tn k : Nat) : pushGroups tn k ≠ [] := by
  have := pushGroups_length tn k
  intro h
  rw [h] at this
  simp at this

theorem pushGroups_dropLast_mem (tn : Nat) :
    ∀ k g, g ∈ (pushGroups tn k).dropLast → 128 ≤ g ∧ g < 256 := by
  intro k
  induction k with
  | zero =>
    intro g hg
    simp [pushGroups] at hg
  | succ k ih =>
    intro g hg
    rw [show pushGroups tn (k + 1)
        = (128 ||| ((tn >>> (7 * (k + 1))) % 128)) :: pushGroups tn k from rfl] at hg
    rw [List.dropLast_cons_of_ne_nil (pushGroups_ne_nil tn k)] at hg
    rcases List.mem_cons.mp hg with h | h
    · subst h
      rw [lor128_eq_add (Nat.mod_lt _ (by norm_num))]
      have := Nat.mod_lt (tn >>> (7 * (k + 1))) (show 0 < 128 by norm_num)
      omega
    · exact ih g h

theorem pushGroups_lt (tn : Nat) : ∀ k, ∀ g ∈ pushGroups tn k, g < 256 := by
  intro k
  induction k with
  | zero =>
    intro g hg
    simp only [pushGroups, List.mem_singleton] at hg
    subst hg
    have := Nat.mod_lt tn (show 0 < 128 by norm_num)
    omega
  | succ k ih =>
    intro g hg
    rw [show pushGroups tn (k + 1)
        = (128 ||| ((tn >>> (7 * (k + 1))) % 128)) :: pushGroups tn k from rfl] at hg
    rcases List.mem_cons.mp hg with h | h
    · subst h
      rw [lor128_eq_add (Nat.mod_lt _ (by norm_num))]
      have := Nat.mod_lt (tn >>> (7 * (k + 1))) (show 0 < 128 by norm_num)
      omega
    · exact ih g h

/-! ## The deferred-length patch -/


theorem lenShiftAux_le (v : Nat) : ∀ f, lenShiftAux v f ≤ 8 * f := by
  intro f
  induction f with
  | zero => exact le_refl 0
  | succ f ih =>
    rw [lenShiftAux]
    split
    · exact ih.trans (by omega)
    · omega

theorem lenOctets_pos (L : Nat) : 1 ≤ (lenOctets L).length := by
  unfold lenOctets
  split <;> simp

theorem lenOctets_le_nine (L : Nat) : (lenOctets L).length ≤ 9 := by
  unfold lenOctets
  split
  · simp
  · have h := lenShiftAux_le L 7
    simp [lenBytes_length]
    omega

theorem take_append_plus (a t : List Nat) (n : Nat) :
    (a ++ t).take (a.length + n) = a ++ t.take n := by
  rw [List.take_append_eq_append_take, List.take_of_length_le (by omega)]
  rw [show a.length + n - a.length = n by omega]

theorem drop_append_plus (a t : List Nat) (n : Nat) :
    (a ++ t).drop (a.length + n) = t.drop n := by
  rw [List.drop_append_eq_append_drop, List.drop_eq_nil_of_le (by omega)]
  rw [show a.length + n - a.length = n by omega]
  rfl

theorem setBytes_fill : ∀ (d junk a c : List Nat), junk.length = d.length →
    setBytes (a ++ junk ++ c) a.length d = a ++ d ++ c := by
  intro d
  induction d with
  | nil =>
    intro junk a c h
    have hj : junk = [] := List.length_eq_zero.mp (by simpa using h)
    subst hj
    rfl
  | cons x ds ih =>
    intro junk a c h
    cases junk with
    | nil => simp at h
    | cons y js =>
      have hlen : js.length = ds.length := by simpa using h
      rw [show setBytes (a ++ (y :: js) ++ c) a.length (x :: ds)
          = setBytes ((a ++ (y :: js) ++ c).set a.length x) (a.length + 1) ds from rfl]
      have hset : (a ++ (y :: js) ++ c).set a.length x = (a ++ [x]) ++ (js ++ c) := by
        rw [List.append_assoc, List.set_append, if_neg (by omega)]
        simp
      rw [hset]
      rw [show a.length + 1 = (a ++ [x]).length by simp]
      have hj2 : (a ++ [x]) ++ (js ++ c) = (a ++ [x]) ++ js ++ c := by simp
      rw [hj2, ih js (a ++ [x]) c hlen]
      simp

theorem with_length_ok {ε : Type} (cb : List Nat → DerResult ε (List Nat))
    (buf content : List Nat)
    (h : cb (buf ++ [255, 255, 255]) = .ok (buf ++ [255, 255, 255] ++ content)) :
    with_length cb buf = .ok (buf ++ lenOctets content.length ++ content) := by
  unfold with_length
  dsimp only
  rw [h]
  have hL : (buf ++ [255, 255, 255] ++ content).length - (buf ++ [255, 255, 255]).length
      = content.length := by
    simp
    omega
  dsimp only
  rw [hL]
  obtain ⟨n, hn⟩ : ∃ m, (lenOctets content.length).length = m := ⟨_, rfl⟩
  have hn1 : 1 ≤ n := hn ▸ lenOctets_pos content.length
  have hn9 : n ≤ 9 := hn ▸ lenOctets_le_nine content.length
  rw [hn]
  simp only [List.length_append, List.length_cons, List.length_nil, List.append_assoc]
  rcases Nat.lt_or_ge n 3 with h3 | h3
  · rw [if_pos h3]
    rw [show buf.length + (0 + 1 + 1 + 1) - (3 - n) - n = buf.length by omega]
    rw [show buf.length + (0 + 1 + 1 + 1) - (3 - n) = buf.length + n by omega]
    rw [show buf.length + (0 + 1 + 1 + 1) = buf.length + 3 by omega]
    rw [take_append_plus, show buf.length + 3 = buf.length + 3 from rfl]
    rw [drop_append_plus]
    rw [List.take_append_of_le_length (by simp; omega)]
    rw [show ([255, 255, 255] ++ content : List Nat).drop 3 = content by simp]
    have hjunk : (([255, 255, 255] : List Nat).take n).length = (lenOctets content.length).length := by
      rw [hn, List.length_take]
      simp
      omega
    have hfill := setBytes_fill (lenOctets content.length) (([255, 255, 255] : List Nat).take n) buf content hjunk
    rw [hfill]
    simp
  · rw [if_neg (by omega)]
    rcases Nat.lt_or_ge 3 n with h4 | h4
    · rw [if_pos h4]
      rw [show buf.length + (0 + 1 + 1 + 1) + (n - 3) - n = buf.length by omega]
      rw [show buf.length + (0 + 1 + 1 + 1) = buf.length + 3 by omega]
      rw [take_append_plus, drop_append_plus]
      rw [List.take_append_of_le_length (by simp)]
      rw [show ([255, 255, 255] : List Nat).take 3 = [255, 255, 255] from rfl]
      rw [show ([255, 255, 255] ++ content : List Nat).drop 3 = content by simp]
      have hb3 : (buf ++ [255, 255, 255]) ++ (List.replicate (n - 3) 0 ++ content)
          = buf ++ ([255, 255, 255] ++ List.replicate (n - 3) 0) ++ content := by simp
      rw [hb3]
      have hjunk : (([255, 255, 255] : List Nat) ++ List.replicate (n - 3) 0).length
          = (lenOctets content.length).length := by
        rw [hn]
        simp
        omega
      rw [setBytes_fill (lenOctets content.length) _ buf content hjunk]
      simp
    · have h33 : n = 3 := by omega
      subst h33
      rw [if_neg (by omega)]
      rw [show buf.length + (0 + 1 + 1 + 1) - 3 = buf.length by omega]
      have hb3 : buf ++ ([255, 255, 255] ++ content)
          = buf ++ ([255, 255, 255] : List Nat) ++ content := by simp
      rw [hb3]
      rw [setBytes_fill (lenOctets content.length) [255, 255, 255] buf content (by simp [hn])]
      simp

/-! ## Length octets: short and long form -/

theorem lenOctets_short {L : Nat} (h : L < 128) : lenOctets L = [L] := by
  unfold lenOctets
  rw [if_pos h]

theorem lenOctets_long {L k : Nat} (hk : k ≤ 7) (hlo : 2 ^ (8 * k) ≤ L)
    (hhi : L < 2 ^ (8 * k + 8)) (h128 : 128 ≤ L) :
    lenOctets L = (128 ||| (k + 1)) :: lenBytes L k := by
  unfold lenOctets
  rw [if_neg (by omega), lenShiftAux_spec L 7 k hk hlo hhi]
  rw [show 8 * k / 8 = k by omega]

theorem lenBytes_headD (v k : Nat) : (lenBytes v k).headD 0 = (v >>> (8 * k)) % 256 := by
  cases k with
  | zero =>
    show (v % 256) = (v >>> (8 * 0)) % 256
    rw [Nat.shiftRight_eq_div_pow]
    norm_num
  | succ k => rfl

/-- C4: `write_length` emits the definite minimal form — a single byte
below 128 for short lengths, else `0x80|N` followed by exactly `N` minimal
big-endian bytes (first byte nonzero, `N-1` bytes could not represent the
length); the indefinite-length octet string `[0x80]` is never produced. -/
theorem C4_write_length_minimal :
    ∀ (L : Nat) (buf : List Nat), L < 2 ^ 64 →
      (L < 128 → write_length L buf = buf ++ [L]) ∧
      (128 ≤ L → ∃ N rest, write_length L buf = buf ++ (128 ||| N) :: rest ∧
        1 ≤ N ∧ N ≤ 8 ∧ rest.length = N ∧ beVal rest = L ∧
        256 ^ (N - 1) ≤ L ∧ rest.headD 0 ≠ 0 ∧ 128 ||| N ≠ 128) ∧
      write_length L buf ≠ buf ++ [128] := by
  intro L buf hL
  refine ⟨fun h => by rw [write_length, lenOctets_short h], fun h128 => ?_, ?_⟩
  · obtain ⟨k, hk7, hlo, hhi⟩ := exists_k_byte L (by omega) hL
    have hlong := lenOctets_long hk7 hlo hhi h128
    refine ⟨k + 1, lenBytes L k, ?_, by omega, by omega, lenBytes_length L k, ?_, ?_, ?_, ?_⟩
    · rw [write_length, hlong]
    · rw [beVal_lenBytes]
      exact Nat.mod_eq_of_lt (by rw [show 8 * (k + 1) = 8 * k + 8 by ring]; exact hhi)
    · rw [show k + 1 - 1 = k by omega, pow256_eq]
      exact hlo
    · rw [lenBytes_headD, Nat.shiftRight_eq_div_pow]
      have h1 : 1 ≤ L / 2 ^ (8 * k) := (Nat.one_le_div_iff (by positivity)).mpr hlo
      have h2 : L / 2 ^ (8 * k) < 256 := by
        rw [Nat.div_lt_iff_lt_mul (by positivity)]
        calc L < 2 ^ (8 * k + 8) := hhi
        _ = 256 * 2 ^ (8 * k) := by rw [pow_add, Nat.mul_comm]; norm_num
      omega
    · rw [lor128_eq_add (by omega)]
      omega
  · rw [write_length]
    intro heq
    have hoct : lenOctets L = [128] := List.append_cancel_left heq
    rcases Nat.lt_or_ge L 128 with h | h
    · rw [lenOctets_short h] at hoct
      simp at hoct
      omega
    · obtain ⟨k, hk7, hlo, hhi⟩ := exists_k_byte L (by omega) hL
      rw [lenOctets_long hk7 hlo hhi h] at hoct
      have hcons := List.cons.injEq (128 ||| (k + 1)) (lenBytes L k) 128 [] ▸ hoct
      simp at hcons
      have hlen := lenBytes_length L k
      rcases hcons with ⟨h1, h2⟩
      rw [h2] at hlen
      simp at hlen

/-- C4 witness at `L = 300`. -/
theorem C4_write_length_minimal_witness :
    ∃ N rest, write_length 300 [] = [] ++ (128 ||| N) :: rest ∧
      1 ≤ N ∧ N ≤ 8 ∧ rest.length = N ∧ beVal rest = 300 ∧
      256 ^ (N - 1) ≤ 300 ∧ rest.headD 0 ≠ 0 ∧ 128 ||| N ≠ 128 :=
  (C4_write_length_minimal 300 [] (by norm_num)).2.1 (by norm_num)

/-! ## Identifier octets -/

/-- C3: `write_identifier` emits the single byte `class<<6 | flag<<5 | N`
for tag numbers below 31; for larger tag numbers it emits
`class<<6 | flag<<5 | 0b11111` followed by the minimal base-128
big-endian groups — nonempty, continuation bit set on every group but the
last, no leading zero group — whose decoded value is exactly the tag
number. -/
theorem C3_write_identifier_roundtrip :
    ∀ (tag : Tag) (pc : PC) (buf : List Nat), tag.tag_number < 2 ^ 64 →
      (tag.tag_number < 31 → write_identifier tag pc buf
        = buf ++ [(tag.tag_class.toNat <<< 6) ||| (pc.toNat <<< 5) ||| tag.tag_number]) ∧
      (31 ≤ tag.tag_number → ∃ groups,
        write_identifier tag pc buf
          = buf ++ ((tag.tag_class.toNat <<< 6) ||| (pc.toNat <<< 5) ||| 31) :: groups ∧
        groups ≠ [] ∧
        (∀ g ∈ groups.dropLast, 128 ≤ g ∧ g < 256) ∧
        groups.getLastD 0 < 128 ∧
        groups.headD 0 % 128 ≠ 0 ∧
        b128Val groups = tag.tag_number) := by
  intro tag pc buf h64
  constructor
  · intro h31
    unfold write_identifier
    dsimp only
    rw [if_pos h31, Nat.mod_eq_of_lt (show tag.tag_number < 256 by omega)]
  · intro h31
    obtain ⟨k, hk9, hlo, hhi⟩ := exists_k_group tag.tag_number (by omega) h64
    have hshift := findShift7_spec tag.tag_number 9 k hk9 hlo hhi
    unfold write_identifier
    dsimp only
    rw [if_neg (by omega), hshift, show 7 * k / 7 = k by omega]
    refine ⟨pushGroups tag.tag_number k, rfl, pushGroups_ne_nil _ _,
      pushGroups_dropLast_mem _ _, ?_, ?_, ?_⟩
    · rw [pushGroups_getLastD]
      exact Nat.mod_lt _ (by norm_num)
    · cases k with
      | zero =>
        show tag.tag_number % 128 % 128 ≠ 0
        have h128 : tag.tag_number < 128 := by
          have := hhi
          norm_num at this
          omega
        rw [Nat.mod_eq_of_lt h128, Nat.mod_eq_of_lt h128]
        omega
      | succ k =>
        show (128 ||| ((tag.tag_number >>> (7 * (k + 1))) % 128)) % 128 ≠ 0
        rw [lor128_mod (Nat.mod_lt _ (by norm_num))]
        rw [Nat.shiftRight_eq_div_pow]
        have h1 : 1 ≤ tag.tag_number / 2 ^ (7 * (k + 1)) :=
          (Nat.one_le_div_iff (by positivity)).mpr hlo
        have h2 : tag.tag_number / 2 ^ (7 * (k + 1)) < 128 := by
          rw [Nat.div_lt_iff_lt_mul (by positivity)]
          calc tag.tag_number < 2 ^ (7 * (k + 1) + 7) := hhi
          _ = 128 * 2 ^ (7 * (k + 1)) := by rw [pow_add, Nat.mul_comm]; norm_num
        rw [Nat.mod_eq_of_lt h2]
        omega
    · rw [b128Val_pushGroups]
      exact Nat.mod_eq_of_lt (by rw [show 7 * (k + 1) = 7 * k + 7 by ring]; exact hhi)

/-! ## Integer content bytes -/

theorem u64Shift_le (v : Nat) : ∀ f, u64Shift v f ≤ 8 * f := by
  intro f
  induction f with
  | zero => exact le_refl 0
  | succ f ih =>
    rw [u64Shift]
    split
    · exact ih.trans (by omega)
    · omega

theorem i64Shift_le (v : Int) : ∀ f, i64Shift v f ≤ 8 * f := by
  intro f
  induction f with
  | zero => exact le_refl 0
  | succ f ih =>
    rw [i64Shift]
    split
    · exact ih.trans (by omega)
    · omega

theorem write_identifier_integer (buf : List Nat) :
    write_identifier TAG_INTEGER .Primitive buf = buf ++ [2] := by
  unfold write_identifier
  dsimp only
  rw [if_pos (by decide)]
  congr 1

theorem magLE_reverse (n L : Nat) (h : magLE n = leBytesN n L) (hL : 1 ≤ L) :
    (magLE n).reverse = lenBytes n (L - 1) := by
  rw [h]
  conv_lhs => rw [show L = (L - 1) + 1 by omega]
  rw [leBytesN_reverse]

theorem i64Shift_eq_u64Shift (v : Int) (hv : 0 ≤ v) :
    ∀ f, i64Shift v f = u64Shift v.toNat f := by
  intro f
  induction f with
  | zero => rfl
  | succ f ih =>
    rw [i64Shift, u64Shift]
    have hpos : (0:Int) < 2 ^ (8 * (f + 1) - 1) := by positivity
    have hiff : (v / 2 ^ (8 * (f + 1) - 1) = 0 ∨ v / 2 ^ (8 * (f + 1) - 1) = -1)
        ↔ v.toNat >>> (8 * (f + 1) - 1) = 0 := by
      rw [ediv_mem_pair_iff hpos, shiftRight_zero_iff]
      have hcast : ((2 ^ (8 * (f + 1) - 1) : Nat) : Int) = 2 ^ (8 * (f + 1) - 1) := by
        push_cast
        ring
      omega
    by_cases hc : v / 2 ^ (8 * (f + 1) - 1) = 0 ∨ v / 2 ^ (8 * (f + 1) - 1) = -1
    · rw [if_pos hc, if_pos (hiff.mp hc), ih]
    · rw [if_neg hc, if_neg (fun hcc => hc (hiff.mpr hcc))]

/-- C3 witness at tag number `2^32 - 1`. -/
theorem C3_write_identifier_roundtrip_witness :
    ∃ groups,
      write_identifier ⟨.universal, 4294967295⟩ PC.Primitive []
        = [] ++ ((TagClass.universal.toNat <<< 6) ||| (PC.Primitive.toNat <<< 5) ||| 31)
            :: groups ∧
      groups ≠ [] ∧
      (∀ g ∈ groups.dropLast, 128 ≤ g ∧ g < 256) ∧
      groups.getLastD 0 < 128 ∧
      groups.headD 0 % 128 ≠ 0 ∧
      b128Val groups = 4294967295 :=
  (C3_write_identifier_roundtrip ⟨.universal, 4294967295⟩ PC.Primitive []
    (by norm_num)).2 (by norm_num)

theorem sigContent_zero : sigContent 0 = [0] := by
  unfold sigContent
  rw [show magLE 0 = [] by rw [magLE]; simp]
  rfl

theorem lenBytes_top (n k : Nat) (hhi : n < 2 ^ (8 * k + 8)) :
    lenBytes n k = (n / 2 ^ (8 * k)) :: (lenBytes n k).tail := by
  have htop : n / 2 ^ (8 * k) < 256 := by
    rw [Nat.div_lt_iff_lt_mul (by positivity)]
    calc n < 2 ^ (8 * k + 8) := hhi
    _ = 256 * 2 ^ (8 * k) := by rw [pow_add, Nat.mul_comm]; norm_num
  cases k with
  | zero =>
    have h8 : n < 256 := by
      norm_num at hhi
      omega
    show [n % 256] = (n / 2 ^ (8 * 0)) :: [n % 256].tail
    norm_num
    omega
  | succ k =>
    rw [show lenBytes n (k + 1) = ((n >>> (8 * (k + 1))) % 256) :: lenBytes n k from rfl]
    simp only [List.tail_cons]
    rw [Nat.shiftRight_eq_div_pow, Nat.mod_eq_of_lt htop]

theorem sigContent_pos (n L : Nat) (hL1 : 1 ≤ L) (hLe : magLE n = leBytesN n L)
    (hhi : n < 256 ^ L) :
    sigContent n = if 128 ≤ n / 256 ^ (L - 1) then 0 :: lenBytes n (L - 1)
      else lenBytes n (L - 1) := by
  have hh : n < 2 ^ (8 * (L - 1) + 8) := by
    rw [show 8 * (L - 1) + 8 = 8 * ((L - 1) + 1) by ring, ← pow256_eq,
      show (L - 1) + 1 = L by omega]
    exact hhi
  unfold sigContent
  rw [magLE_reverse n L hLe hL1]
  rw [lenBytes_top n (L - 1) hh]
  dsimp only
  rw [← lenBytes_top n (L - 1) hh, pow256_eq]


theorem write_u64_spec (n : Nat) (hn : n < 2 ^ 64) (buf : List Nat) :
    write_u64 n buf = buf ++ 2 :: (sigContent n).length :: sigContent n := by
  rcases Nat.eq_zero_or_pos n with h0 | hpos
  · subst h0
    rw [sigContent_zero]
    unfold write_u64
    dsimp only
    rw [show u64Shift 0 8 = 0 by decide]
    rw [if_neg (by omega)]
    rw [write_identifier_integer, write_length, lenOctets_short (by norm_num)]
    simp [lenBytes]
  · obtain ⟨L, hL1, hLe, hlo, hhi⟩ := magLE_spec n hpos
    have hsig := sigContent_pos n L hL1 hLe hhi
    have hLle : L ≤ 8 := by
      by_contra hgt
      have : 256 ^ 8 ≤ 256 ^ (L - 1) := Nat.pow_le_pow_right (by norm_num) (by omega)
      have h64 : (2:Nat) ^ 64 = 256 ^ 8 := by norm_num
      omega
    have hexL : 8 * (L - 1) + 8 = 8 * L := by omega
    have hpowL : (256:Nat) ^ L = 2 ^ (8 * L) := by
      rw [pow256_eq]
    have hpowL1 : (256:Nat) ^ (L - 1) = 2 ^ (8 * (L - 1)) := pow256_eq (L - 1)
    rcases Nat.lt_or_ge (n / 256 ^ (L - 1)) 128 with hlt | hge
    · rw [hsig, if_neg (by omega)]
      have hn7 : n < 2 ^ (8 * (L - 1) + 7) := by
        have hmul : n < 128 * 256 ^ (L - 1) := by
          rw [← Nat.div_lt_iff_lt_mul (by positivity)]
          exact hlt
        have he : (2:Nat) ^ (8 * (L - 1) + 7) = 128 * 2 ^ (8 * (L - 1)) := by
          rw [pow_add, Nat.mul_comm]
          norm_num
        omega
      have hsh : u64Shift n 8 = 8 * (L - 1) := by
        apply u64Shift_spec n 8 (L - 1) (by omega)
        · omega
        · have he : (2:Nat) ^ (8 * (L - 1) + 8) = 2 * 2 ^ (8 * (L - 1) + 7) := by
            rw [show 8 * (L - 1) + 8 = (8 * (L - 1) + 7) + 1 by omega, pow_succ]
            ring
          omega
      unfold write_u64
      dsimp only
      rw [hsh, if_neg (by omega), show 8 * (L - 1) / 8 = L - 1 by omega]
      rw [write_identifier_integer, write_length, lenOctets_short (by omega)]
      rw [lenBytes_length]
      simp
    · rw [hsig, if_pos hge]
      have hn8lo : 2 ^ (8 * (L - 1) + 7) ≤ n := by
        have hmul : 128 * 256 ^ (L - 1) ≤ n := by
          rw [← Nat.le_div_iff_mul_le (by positivity)]
          exact hge
        have he : (2:Nat) ^ (8 * (L - 1) + 7) = 128 * 2 ^ (8 * (L - 1)) := by
          rw [pow_add, Nat.mul_comm]
          norm_num
        omega
      have hnL : n < 2 ^ (8 * L) := by
        rw [← hpowL]
        exact hhi
      have hsh : u64Shift n 8 = 8 * L := by
        apply u64Shift_spec n 8 L hLle
        · have he2 : (2:Nat) ^ (8 * L) = 2 * 2 ^ (8 * (L - 1) + 7) := by
            rw [show 8 * L = (8 * (L - 1) + 7) + 1 by omega, pow_succ]
            ring
          omega
        · have h21 : (2:Nat) ^ (8 * L + 1) = 2 * 2 ^ (8 * L) := by
            rw [pow_succ]
            ring
          have hAB : (2:Nat) ^ (8 * L + 1) ≤ 2 ^ (8 * L + 8) :=
            Nat.pow_le_pow_right (by norm_num) (by omega)
          omega
      have hexp : lenBytes n L = 0 :: lenBytes n (L - 1) := by
        conv_lhs => rw [show L = (L - 1) + 1 by omega]
        rw [show lenBytes n ((L - 1) + 1)
            = ((n >>> (8 * ((L - 1) + 1))) % 256) :: lenBytes n (L - 1) from rfl]
        have hz : n >>> (8 * ((L - 1) + 1)) = 0 := by
          rw [shiftRight_zero_iff, show 8 * ((L - 1) + 1) = 8 * L by omega]
          exact hnL
        rw [hz]
      unfold write_u64
      dsimp only
      rw [hsh]
      rcases Nat.lt_or_ge L 8 with hL7 | hL8
      · rw [if_neg (by omega), show 8 * L / 8 = L by omega]
        rw [write_identifier_integer, write_length, lenOctets_short (by omega)]
        rw [hexp, List.length_cons, lenBytes_length]
        rw [show L - 1 + 1 + 1 = L + 1 by omega]
        simp
      · have hL8' : L = 8 := by omega
        subst hL8'
        rw [if_pos (by norm_num)]
        rw [write_identifier_integer, write_length, lenOctets_short (by norm_num)]
        rw [List.length_cons, lenBytes_length]
        norm_num

theorem write_i64_nonneg (v : Int) (h0 : 0 ≤ v) (h1 : v < 2 ^ 63) (buf : List Nat) :
    write_i64 v buf = write_u64 v.toNat buf := by
  have h63 : v.toNat < 2 ^ 63 := by
    have e1 : (2:Int) ^ 63 = 9223372036854775808 := by norm_num
    have e2 : (2:Nat) ^ 63 = 9223372036854775808 := by norm_num
    omega
  have hsh8 : u64Shift v.toNat 8 = u64Shift v.toNat 7 := by
    rw [u64Shift]
    rw [if_pos (shiftRight_zero_iff.mpr (by norm_num at h63 ⊢; omega))]
  have hsh : i64Shift v 7 = u64Shift v.toNat 8 := by
    rw [hsh8]
    exact i64Shift_eq_u64Shift v h0 7
  have hle : i64Shift v 7 ≤ 56 := i64Shift_le v 7
  unfold write_i64 write_u64
  dsimp only
  rw [← hsh, if_neg (by omega)]
  rw [i64Bytes_nonneg v h0]


theorem beSigned_i64Bytes (v : Int) (k : Nat) (h2 : -((2:Int) ^ (8 * k + 7)) ≤ v)
    (h3 : v < 2 ^ (8 * k + 7)) : beSigned (i64Bytes v k) = v := by
  unfold beSigned
  rw [i64Bytes_length]
  have hval := beVal_i64Bytes v k
  have hP : (2:Int) ^ (8 * (k + 1)) = 2 * 2 ^ (8 * k + 7) := by
    rw [show 8 * (k + 1) = (8 * k + 7) + 1 by ring, pow_succ]
    ring
  have hcast1 : ((2 ^ (8 * (k + 1)) : Nat) : Int) = 2 ^ (8 * (k + 1)) := by
    push_cast
    ring
  have hexp : 8 * (k + 1) - 1 = 8 * k + 7 := by omega
  rw [hexp]
  have hcast2 : ((2 ^ (8 * k + 7) : Nat) : Int) = 2 ^ (8 * k + 7) := by
    push_cast
    ring
  rcases le_or_lt 0 v with hv | hv
  · have hm : v % 2 ^ (8 * (k + 1)) = v := Int.emod_eq_of_lt hv (by omega)
    rw [hm] at hval
    rw [if_neg (by omega)]
    exact hval
  · have hm : v % 2 ^ (8 * (k + 1)) = v + 2 ^ (8 * (k + 1)) := by
      have h4 : (0:Int) ≤ v + 2 ^ (8 * (k + 1)) := by omega
      have h5 : v + 2 ^ (8 * (k + 1)) < 2 ^ (8 * (k + 1)) := by omega
      calc v % 2 ^ (8 * (k + 1)) = (v + 2 ^ (8 * (k + 1)) * 1) % 2 ^ (8 * (k + 1)) := by
            rw [Int.add_mul_emod_self_left]
      _ = v + 2 ^ (8 * (k + 1)) := by
            rw [mul_one]
            exact Int.emod_eq_of_lt h4 h5
    rw [hm] at hval
    rw [if_pos (by omega)]
    omega

theorem write_i64_spec (v : Int) (hneg : -(2:Int) ^ 63 ≤ v) (hpos : v < 2 ^ 63)
    (buf : List Nat) :
    ∃ k, k ≤ 7 ∧ write_i64 v buf = buf ++ 2 :: (k + 1) :: i64Bytes v k ∧
      beSigned (i64Bytes v k) = v ∧
      (k = 0 ∨ ¬(-((2:Int) ^ (8 * k - 1)) ≤ v ∧ v < 2 ^ (8 * k - 1))) := by
  obtain ⟨k, hk7, hdisj, h2, h3, _, _⟩ := signed_window v hneg hpos
  have hsh := i64Shift_spec v 7 k hk7 hdisj h2 h3
  have hP8 : (2:Int) ^ (8 * k + 8) = 2 * 2 ^ (8 * k + 7) := by
    rw [show 8 * k + 8 = (8 * k + 7) + 1 by ring, pow_succ]
    ring
  have hfit : -((2:Int) ^ (8 * k + 7)) ≤ v ∧ v < 2 ^ (8 * k + 7) := by
    constructor <;> omega
  refine ⟨k, hk7, ?_, beSigned_i64Bytes v k hfit.1 hfit.2, ?_⟩
  · unfold write_i64
    dsimp only
    rw [hsh, show 8 * k / 8 = k by omega]
    rw [write_identifier_integer, write_length, lenOctets_short (by omega)]
    simp
  · rcases Nat.eq_zero_or_pos k with hk0 | hkpos
    · exact Or.inl hk0
    · right
      rintro ⟨ha, hb⟩
      have hev := two_pow_pred_int (8 * k) (by omega)
      rcases hdisj with h | h
      · omega
      · omega


/-- C5: `write_i64` emits tag `0x02`, a single length byte equal to the
minimal two's-complement width, and the minimal big-endian
two's-complement content bytes (which decode back to the value); plus the
three concrete encodings from the spec. -/
theorem C5_write_i64_minimal :
    (∀ (v : Int) (buf : List Nat), -(2:Int) ^ 63 ≤ v → v < 2 ^ 63 → ∃ content,
      write_i64 v buf = buf ++ 2 :: content.length :: content ∧
      1 ≤ content.length ∧ content.length ≤ 8 ∧ beSigned content = v ∧
      (content.length = 1 ∨
        ¬(-((2:Int) ^ (8 * (content.length - 1) - 1)) ≤ v ∧
          v < 2 ^ (8 * (content.length - 1) - 1)))) ∧
    construct_der (ε := Unit) (fun b => DerResult.ok (write_i64 10 b))
      = DerResult.ok [2, 1, 10] ∧
    construct_der (ε := Unit) (fun b => DerResult.ok (write_i64 1234567890 b))
      = DerResult.ok [2, 4, 73, 150, 2, 210] ∧
    construct_der (ε := Unit) (fun b => DerResult.ok (write_i64 (-1) b))
      = DerResult.ok [2, 1, 255] := by
  refine ⟨?_, by decide, by decide, by decide⟩
  intro v buf hneg hpos
  obtain ⟨k, hk7, hout, hdec, hmin⟩ := write_i64_spec v hneg hpos buf
  refine ⟨i64Bytes v k, ?_, ?_, ?_, hdec, ?_⟩
  · rw [hout, i64Bytes_length]
  · rw [i64Bytes_length]
    omega
  · rw [i64Bytes_length]
    omega
  · rw [i64Bytes_length]
    rw [show k + 1 - 1 = k by omega]
    rcases hmin with h | h
    · left
      omega
    · right
      exact h

/-- C5 witness at `v = 1234567890`. -/
theorem C5_write_i64_minimal_witness :
    ∃ content, write_i64 1234567890 [] = [] ++ 2 :: content.length :: content ∧
      1 ≤ content.length ∧ content.length ≤ 8 ∧ beSigned content = 1234567890 ∧
      (content.length = 1 ∨
        ¬(-((2:Int) ^ (8 * (content.length - 1) - 1)) ≤ 1234567890 ∧
          (1234567890:Int) < 2 ^ (8 * (content.length - 1) - 1))) :=
  C5_write_i64_minimal.1 1234567890 [] (by norm_num) (by norm_num)


theorem sigContent_facts (n : Nat) (hn : n < 2 ^ 64) :
    beVal (sigContent n) = n ∧ (sigContent n).headD 0 < 128 := by
  rcases Nat.eq_zero_or_pos n with h0 | hpos
  · subst h0
    rw [sigContent_zero]
    constructor
    · rfl
    · norm_num
  · obtain ⟨L, hL1, hLe, hlo, hhi⟩ := magLE_spec n hpos
    have hsig := sigContent_pos n L hL1 hLe hhi
    have hexL : 8 * ((L - 1) + 1) = 8 * L := by omega
    have hpowL : (256:Nat) ^ L = 2 ^ (8 * L) := pow256_eq L
    have hbe : beVal (lenBytes n (L - 1)) = n := by
      rw [beVal_lenBytes, hexL]
      exact Nat.mod_eq_of_lt (by omega)
    have htop : n / 256 ^ (L - 1) < 256 := by
      rw [Nat.div_lt_iff_lt_mul (by positivity)]
      calc n < 256 ^ L := hhi
      _ = 256 * 256 ^ (L - 1) := by
          conv_lhs => rw [show L = (L - 1) + 1 by omega]
          rw [pow_succ']
    have hhead : (lenBytes n (L - 1)).headD 0 = n / 256 ^ (L - 1) := by
      rw [lenBytes_headD, Nat.shiftRight_eq_div_pow, ← pow256_eq]
      exact Nat.mod_eq_of_lt htop
    rcases Nat.lt_or_ge (n / 256 ^ (L - 1)) 128 with hlt | hge
    · rw [hsig, if_neg (by omega)]
      exact ⟨hbe, by rw [hhead]; exact hlt⟩
    · rw [hsig, if_pos hge]
      constructor
      · rw [beVal_cons, hbe]
        ring_nf
      · norm_num

/-- C6: the unsigned writers encode their argument as the equivalent
non-negative signed INTEGER — the minimal big-endian magnitude, with
`0x00` prepended whenever the magnitude's most significant bit is set —
and the content decodes back to the value with a sign-clear first byte;
plus the two concrete encodings from the spec. -/
theorem C6_unsigned_writers :
    (∀ (v : Nat) (buf : List Nat), v < 2 ^ 64 →
      write_u64 v buf = buf ++ 2 :: (sigContent v).length :: sigContent v) ∧
    (∀ (v : Nat) (buf : List Nat), v < 2 ^ 8 →
      write_u8 v buf = buf ++ 2 :: (sigContent v).length :: sigContent v) ∧
    (∀ (v : Nat) (buf : List Nat), v < 2 ^ 16 →
      write_u16 v buf = buf ++ 2 :: (sigContent v).length :: sigContent v) ∧
    (∀ (v : Nat) (buf : List Nat), v < 2 ^ 32 →
      write_u32 v buf = buf ++ 2 :: (sigContent v).length :: sigContent v) ∧
    (∀ v : Nat, v < 2 ^ 64 → beVal (sigContent v) = v ∧ (sigContent v).headD 0 < 128) ∧
    construct_der (ε := Unit) (fun b => DerResult.ok (write_u8 200 b))
      = DerResult.ok [2, 2, 0, 200] ∧
    construct_der (ε := Unit) (fun b => DerResult.ok (write_u8 100 b))
      = DerResult.ok [2, 1, 100] := by
  have hsmall : ∀ (v : Nat) (buf : List Nat), v < 2 ^ 63 →
      write_i64 (v : Int) buf = buf ++ 2 :: (sigContent v).length :: sigContent v := by
    intro v buf hv
    have hcast : ((2 ^ 63 : Nat) : Int) = 2 ^ 63 := by norm_cast
    rw [write_i64_nonneg (v : Int) (by positivity) (by omega) buf]
    have htn : ((v : Int)).toNat = v := rfl
    rw [htn]
    exact write_u64_spec v (by omega) buf
  refine ⟨fun v buf hv => write_u64_spec v hv buf,
    fun v buf hv => hsmall v buf
      (lt_of_lt_of_le hv (Nat.pow_le_pow_right (by norm_num) (by norm_num))),
    fun v buf hv => hsmall v buf
      (lt_of_lt_of_le hv (Nat.pow_le_pow_right (by norm_num) (by norm_num))),
    fun v buf hv => hsmall v buf
      (lt_of_lt_of_le hv (Nat.pow_le_pow_right (by norm_num) (by norm_num))),
    sigContent_facts, by decide, by decide⟩

/-- C6 witness at `v = 200` through `write_u8` and `write_u64`. -/
theorem C6_unsigned_writers_witness :
    write_u8 200 [] = [] ++ 2 :: (sigContent 200).length :: sigContent 200 ∧
    write_u64 200 [] = [] ++ 2 :: (sigContent 200).length :: sigContent 200 :=
  ⟨C6_unsigned_writers.2.1 200 [] (by norm_num),
   C6_unsigned_writers.1 200 [] (by norm_num)⟩

/-! ## Arbitrary-precision integer equivalence -/
theorem byte_of_mod_eq {v w : Nat} (j k : Nat) (hj : j ≤ k)
    (h : v % 2 ^ (8 * (k + 1)) = w % 2 ^ (8 * (k + 1))) :
    (v >>> (8 * j)) % 256 = (w >>> (8 * j)) % 256 := by
  have hM : (2:Nat) ^ (8 * (k + 1)) = 2 ^ (8 * j) * (256 * 2 ^ (8 * (k + 1) - 8 * j - 8)) := by
    rw [show (256:Nat) = 2 ^ 8 by norm_num, ← pow_add, ← pow_add]
    congr 1
    omega
  have hsplit : ∀ x : Nat, (x >>> (8 * j)) % 256
      = (x % 2 ^ (8 * (k + 1)) / 2 ^ (8 * j)
          + 256 * (2 ^ (8 * (k + 1) - 8 * j - 8) * (x / 2 ^ (8 * (k + 1))))) % 256 := by
    intro x
    rw [Nat.shiftRight_eq_div_pow]
    have h1 : (x / 2 ^ (8 * (k + 1)) * (256 * 2 ^ (8 * (k + 1) - 8 * j - 8))) * 2 ^ (8 * j)
        = x / 2 ^ (8 * (k + 1)) * 2 ^ (8 * (k + 1)) := by
      rw [hM]
      ring
    have hx : x % 2 ^ (8 * (k + 1))
        + (x / 2 ^ (8 * (k + 1)) * (256 * 2 ^ (8 * (k + 1) - 8 * j - 8))) * 2 ^ (8 * j)
        = x := by
      rw [h1, Nat.mod_add_div']
    conv_lhs => rw [← hx]
    rw [Nat.add_mul_div_right _ _ (show 0 < 2 ^ (8 * j) by positivity)]
    rw [show x / 2 ^ (8 * (k + 1)) * (256 * 2 ^ (8 * (k + 1) - 8 * j - 8))
        = 256 * (2 ^ (8 * (k + 1) - 8 * j - 8) * (x / 2 ^ (8 * (k + 1)))) by ring]
  rw [hsplit v, hsplit w, Nat.add_mul_mod_self_left, Nat.add_mul_mod_self_left, h]

theorem lenBytes_congr {v w : Nat} (k : Nat) (h : v % 2 ^ (8 * (k + 1)) = w % 2 ^ (8 * (k + 1))) :
    lenBytes v k = lenBytes w k := by
  induction k with
  | zero =>
    show [v % 256] = [w % 256]
    have h0 := byte_of_mod_eq 0 0 (le_refl 0) h
    simp only [Nat.mul_zero, Nat.shiftRight_zero] at h0
    rw [h0]
  | succ k ih =>
    rw [show lenBytes v (k + 1) = ((v >>> (8 * (k + 1))) % 256) :: lenBytes v k from rfl]
    rw [show lenBytes w (k + 1) = ((w >>> (8 * (k + 1))) % 256) :: lenBytes w k from rfl]
    rw [byte_of_mod_eq (k + 1) (k + 1) (le_refl _) h]
    rw [ih]
    have hdvd : (2:Nat) ^ (8 * (k + 1)) ∣ 2 ^ (8 * (k + 1 + 1)) :=
      pow_dvd_pow 2 (by omega)
    exact (Nat.mod_mod_of_dvd v hdvd) ▸ (Nat.mod_mod_of_dvd w hdvd) ▸ (by rw [h])


theorem i64Bytes_neg (v : Int) (k : Nat) (hv : -((2:Int) ^ (8 * (k + 1))) ≤ v)
    (hneg : v < 0) :
    i64Bytes v k = lenBytes (2 ^ (8 * (k + 1)) - (-v).toNat) k := by
  have hw0 : (0:Int) ≤ v + 2 ^ (8 * (k + 1)) := by omega
  have hcong : i64Bytes v k = i64Bytes (v + 2 ^ (8 * (k + 1))) k := by
    apply i64Bytes_congr
    intro j hj
    have hMM : (2:Int) ^ (8 * (k + 1)) = 256 * 2 ^ (8 * (k + 1) - 8 * j - 8) * 2 ^ (8 * j) := by
      rw [show (256:Int) = 2 ^ 8 by norm_num, ← pow_add, ← pow_add]
      congr 1
      omega
    have hsplit : (v + 2 ^ (8 * (k + 1))) / 2 ^ (8 * j)
        = v / 2 ^ (8 * j) + 256 * 2 ^ (8 * (k + 1) - 8 * j - 8) := by
      conv_lhs => rw [hMM]
      rw [Int.add_mul_ediv_right _ _ (show (2:Int) ^ (8 * j) ≠ 0 by positivity)]
    rw [hsplit]
    rw [show v / 2 ^ (8 * j) + 256 * 2 ^ (8 * (k + 1) - 8 * j - 8)
        = v / 2 ^ (8 * j) + 2 ^ (8 * (k + 1) - 8 * j - 8) * 256 by ring]
    rw [Int.add_mul_emod_self]
  rw [hcong, i64Bytes_nonneg _ hw0]
  congr 1
  have hcast : ((2 ^ (8 * (k + 1)) : Nat) : Int) = 2 ^ (8 * (k + 1)) := by norm_cast
  omega


theorem magLE_ne_single_zero (n : Nat) (hpos : 0 < n) : magLE n ≠ [0] := by
  intro h
  have hv := valLE_magLE n hpos
  rw [h] at hv
  show False
  rw [show valLE [0] = 0 + 256 * valLE [] from rfl] at hv
  rw [show valLE [] = 0 from rfl] at hv
  omega

theorem magLE_getLastD (n L : Nat) (hL1 : 1 ≤ L) (hLe : magLE n = leBytesN n L) :
    (magLE n).getLastD 0 = n / 256 ^ (L - 1) % 256 := by
  rw [hLe]
  conv_lhs => rw [show L = (L - 1) + 1 by omega]
  rw [leBytesN_getLastD]

theorem write_biguint_eq (n : Nat) (hn : n < 2 ^ 64) (buf : List Nat) :
    write_biguint n buf = write_u64 n buf := by
  rw [write_u64_spec n hn buf]
  unfold write_biguint
  dsimp only
  rcases Nat.eq_zero_or_pos n with h0 | hpos
  · subst h0
    rw [show to_bytes_le_u 0 = [0] from rfl, if_pos rfl]
    rw [write_identifier_integer, write_length, lenOctets_short (by norm_num), sigContent_zero]
    simp
  · have hne : to_bytes_le_u n = magLE n := by
      unfold to_bytes_le_u
      rw [if_neg (by omega)]
    rw [hne, if_neg (magLE_ne_single_zero n hpos)]
    obtain ⟨L, hL1, hLe, hlo, hhi⟩ := magLE_spec n hpos
    have hsig := sigContent_pos n L hL1 hLe hhi
    have hLle : L ≤ 8 := by
      by_contra hgt
      have : 256 ^ 8 ≤ 256 ^ (L - 1) := Nat.pow_le_pow_right (by norm_num) (by omega)
      have h64 : (2:Nat) ^ 64 = 256 ^ 8 := by norm_num
      omega
    have htop : n / 256 ^ (L - 1) < 256 := by
      rw [Nat.div_lt_iff_lt_mul (by positivity)]
      calc n < 256 ^ L := hhi
      _ = 256 * 256 ^ (L - 1) := by
          conv_lhs => rw [show L = (L - 1) + 1 by omega]
          rw [pow_succ']
    have hlast : (magLE n).getLastD 0 = n / 256 ^ (L - 1) := by
      rw [magLE_getLastD n L hL1 hLe, Nat.mod_eq_of_lt htop]
    have hlen : (magLE n).length = L := by
      rw [hLe, leBytesN_length]
    have hrev : (magLE n).reverse = lenBytes n (L - 1) := magLE_reverse n L hLe hL1
    rcases Nat.lt_or_ge (n / 256 ^ (L - 1)) 128 with hlt | hge
    · rw [hlast, if_neg (by omega)]
      rw [hsig, if_neg (by omega)]
      rw [hlen, hrev, write_identifier_integer, write_length, lenOctets_short (by omega)]
      rw [lenBytes_length]
      rw [show L - 1 + 1 = L by omega]
      simp
    · rw [hlast, if_pos hge]
      rw [hsig, if_pos hge]
      rw [hlen, hrev, write_identifier_integer, write_length, lenOctets_short (by omega)]
      rw [List.length_cons, lenBytes_length]
      rw [show L - 1 + 1 + 1 = L + 1 by omega]
      simp


theorem cast_two_pow (m : Nat) : ((2 ^ m : Nat) : Int) = 2 ^ m := by norm_cast

theorem write_bigint_zero (buf : List Nat) : write_bigint 0 buf = write_i64 0 buf := by
  unfold write_bigint write_i64
  dsimp only
  rw [show to_bytes_le 0 = (Sign.noSign, [0]) from rfl]
  rw [show i64Shift 0 7 = 0 by decide]
  rw [write_identifier_integer, write_length, lenOctets_short (by norm_num)]
  rfl

theorem write_bigint_pos (v : Int) (hv : 0 < v) (hpos : v < 2 ^ 63) (buf : List Nat) :
    write_bigint v buf = write_i64 v buf := by
  have hvt : v.toNat < 2 ^ 64 := by
    have hc := cast_two_pow 63
    have hc2 : (2:Nat) ^ 63 < 2 ^ 64 := by norm_num
    omega
  have h1 : write_bigint v buf = write_biguint v.toNat buf := by
    unfold write_bigint write_biguint
    dsimp only
    rw [show to_bytes_le v = (Sign.plus, magLE v.toNat) by
      unfold to_bytes_le
      rw [if_neg (by omega), if_pos hv]]
    rw [show to_bytes_le_u v.toNat = magLE v.toNat by
      unfold to_bytes_le_u
      rw [if_neg (by omega)]]
    rw [if_neg (magLE_ne_single_zero v.toNat (by omega))]
  rw [h1, write_biguint_eq v.toNat hvt buf]
  exact (write_i64_nonneg v (by omega) hpos buf).symm


theorem leBytesN_getLastD_sub (u M d : Nat) (hM : 1 ≤ M) :
    (leBytesN u M).getLastD d = u / 256 ^ (M - 1) % 256 := by
  obtain ⟨k, rfl⟩ : ∃ k, M = k + 1 := ⟨M - 1, by omega⟩
  rw [leBytesN_getLastD]
  norm_num

theorem leBytesN_reverse_sub (u M : Nat) (hM : 1 ≤ M) :
    (leBytesN u M).reverse = lenBytes u (M - 1) := by
  obtain ⟨k, rfl⟩ : ∃ k, M = k + 1 := ⟨M - 1, by omega⟩
  rw [leBytesN_reverse]
  norm_num

theorem lenBytes_decomp (x M : Nat) (hM : 1 ≤ M) :
    lenBytes x M = ((x >>> (8 * M)) % 256) :: lenBytes x (M - 1) := by
  obtain ⟨k, rfl⟩ : ∃ k, M = k + 1 := ⟨M - 1, by omega⟩
  rfl

theorem write_bigint_neg (v : Int) (hv : v < 0) (hneg : -(2:Int) ^ 63 ≤ v) (buf : List Nat) :
    write_bigint v buf = write_i64 v buf := by
  have hc63 := cast_two_pow 63
  have hn1 : 1 ≤ (-v).toNat := by omega
  have hn63 : (-v).toNat ≤ 2 ^ 63 := by omega
  obtain ⟨L, hL1, hLe, hlo, hhi⟩ := magLE_spec (-v).toNat hn1
  have hpowL : (256:Nat) ^ L = 2 ^ (8 * L) := pow256_eq L
  have hpowL1 : (256:Nat) ^ (L - 1) = 2 ^ (8 * (L - 1)) := pow256_eq (L - 1)
  have hlenL : (magLE (-v).toNat).length = L := by rw [hLe, leBytesN_length]
  have hbytes : negBytes 1 (magLE (-v).toNat) = leBytesN (256 ^ L - (-v).toNat) L := by
    have h := negBytes_eq (magLE (-v).toNat) 1 (magLE_bytes_lt _) (le_refl 1)
    rw [hlenL, valLE_magLE _ hn1] at h
    rw [show 256 ^ L - 1 - (-v).toNat + 1 = 256 ^ L - (-v).toNat by omega] at h
    exact h
  unfold write_bigint
  dsimp only
  rw [show to_bytes_le v = (Sign.minus, magLE (-v).toNat) by
    unfold to_bytes_le
    rw [if_neg (by omega), if_neg (by omega)]]
  dsimp only
  rw [hbytes]
  rw [leBytesN_length]
  have hu1 : 1 ≤ 256 ^ L - (-v).toNat := by omega
  have huLt : 256 ^ L - (-v).toNat < 256 ^ L := by omega
  have hpowLs : (256:Nat) ^ L = 256 * 256 ^ (L - 1) := by
    conv_lhs => rw [show L = (L - 1) + 1 by omega]
    rw [pow_succ']
  have hulast : (leBytesN (256 ^ L - (-v).toNat) L).getLastD 0
      = (256 ^ L - (-v).toNat) / 256 ^ (L - 1) := by
    rw [leBytesN_getLastD_sub _ _ _ hL1]
    apply Nat.mod_eq_of_lt
    rw [Nat.div_lt_iff_lt_mul (by positivity)]
    omega
  have hurev : (leBytesN (256 ^ L - (-v).toNat) L).reverse
      = lenBytes (256 ^ L - (-v).toNat) (L - 1) :=
    leBytesN_reverse_sub _ _ hL1
  have hthr : 128 * 256 ^ (L - 1) = 2 ^ (8 * L - 1) := by
    rw [hpowL1, show (128:Nat) = 2 ^ 7 by norm_num, ← pow_add]
    congr 1
    omega
  have hLle8 : L ≤ 8 := by
    by_contra hgt
    have h1 : (2:Nat) ^ 64 ≤ 2 ^ (8 * (L - 1)) := Nat.pow_le_pow_right (by norm_num) (by omega)
    have h2 : (2:Nat) ^ 63 < 2 ^ 64 := by norm_num
    omega
  have hcL : ((2 ^ (8 * L) : Nat) : Int) = 2 ^ (8 * L) := cast_two_pow _
  have hcL1 : ((2 ^ (8 * L - 1) : Nat) : Int) = 2 ^ (8 * L - 1) := cast_two_pow _
  have hspN : (2:Nat) ^ (8 * L) = 2 * 2 ^ (8 * L - 1) := two_pow_pred _ (by omega)
  have hspI : (2:Int) ^ (8 * L) = 2 * 2 ^ (8 * L - 1) := two_pow_pred_int _ (by omega)
  rw [hulast, hurev]
  rcases Nat.lt_or_ge ((256 ^ L - (-v).toNat) / 256 ^ (L - 1)) 128 with hlt | hge
  · rw [if_pos hlt]
    have hub : 256 ^ L - (-v).toNat < 2 ^ (8 * L - 1) := by
      have h := (Nat.div_lt_iff_lt_mul (show 0 < (256:Nat) ^ (L - 1) by positivity)).mp hlt
      omega
    have hnlb : 2 ^ (8 * L - 1) < (-v).toNat := by omega
    have hL7 : L ≤ 7 := by
      by_contra hgt
      have hge63 : 63 ≤ 8 * L - 1 := by omega
      have hmono : (2:Nat) ^ 63 ≤ 2 ^ (8 * L - 1) := Nat.pow_le_pow_right (by norm_num) hge63
      omega
    have hsh : i64Shift v 7 = 8 * L := by
      apply i64Shift_spec v 7 L (by omega)
      · right
        right
        omega
      · have he8 : (2:Int) ^ (8 * L + 8) = 2 ^ (8 * L) * 256 := by
          rw [pow_add]
          norm_num
        omega
      · have hp : (0:Int) < 2 ^ (8 * L + 8) := by positivity
        omega
    have hpow8 : (2:Nat) ^ (8 * (L + 1)) = 256 * 2 ^ (8 * L) := by
      rw [show (256:Nat) = 2 ^ 8 by norm_num, ← pow_add]
      congr 1
      omega
    have hcontent : i64Bytes v L = 255 :: lenBytes (256 ^ L - (-v).toNat) (L - 1) := by
      have hcP : ((2 ^ (8 * (L + 1)) : Nat) : Int) = 2 ^ (8 * (L + 1)) := cast_two_pow _
      have hbig := i64Bytes_neg v L (by
        have hmono : (2:Nat) ^ (8 * L) ≤ 2 ^ (8 * (L + 1)) :=
          Nat.pow_le_pow_right (by norm_num) (by omega)
        omega) hv
      rw [hbig]
      rw [lenBytes_decomp _ L hL1]
      congr 1
      · rw [Nat.shiftRight_eq_div_pow]
        have hdiv : (2 ^ (8 * (L + 1)) - (-v).toNat) / 2 ^ (8 * L) = 255 := by
          apply Nat.div_eq_of_lt_le
          · omega
          · omega
        rw [hdiv]
      · apply lenBytes_congr
        rw [show 8 * (L - 1 + 1) = 8 * L by omega]
        have hXeq : 2 ^ (8 * (L + 1)) - (-v).toNat
            = (256 ^ L - (-v).toNat) + 2 ^ (8 * L) * 255 := by omega
        rw [hXeq, Nat.add_mul_mod_self_left]
    unfold write_i64
    dsimp only
    rw [hsh, show 8 * L / 8 = L by omega]
    rw [write_identifier_integer, write_length, lenOctets_short (by omega)]
    rw [hcontent]
  · rw [if_neg (by omega)]
    have hub : 2 ^ (8 * L - 1) ≤ 256 ^ L - (-v).toNat := by
      have h := (Nat.le_div_iff_mul_le (show 0 < (256:Nat) ^ (L - 1) by positivity)).mp hge
      omega
    have hnub : (-v).toNat ≤ 2 ^ (8 * L - 1) := by omega
    have hsh : i64Shift v 7 = 8 * (L - 1) := by
      apply i64Shift_spec v 7 (L - 1) (by omega)
      · rcases Nat.eq_zero_or_pos (L - 1) with h0 | hLpos
        · exact Or.inl h0
        · right
          right
          have hcK : ((2 ^ (8 * (L - 1)) : Nat) : Int) = 2 ^ (8 * (L - 1)) := cast_two_pow _
          have hspK : (2:Nat) ^ (8 * (L - 1) + 1) = 2 * 2 ^ (8 * (L - 1)) := by
            rw [pow_succ]
            ring
          have h8 : (8:Nat) ≤ 8 * (L - 1) := by omega
          have hmono : (2:Nat) ^ 8 ≤ 2 ^ (8 * (L - 1)) := Nat.pow_le_pow_right (by norm_num) h8
          have h256 : (2:Nat) ^ 8 = 256 := by norm_num
          omega
      · have hcK : ((2 ^ (8 * (L - 1)) : Nat) : Int) = 2 ^ (8 * (L - 1)) := cast_two_pow _
        have heq : (2:Int) ^ (8 * (L - 1) + 8) = 2 ^ (8 * (L - 1)) * 256 := by
          rw [pow_add]
          norm_num
        omega
      · have hp : (0:Int) < 2 ^ (8 * (L - 1) + 8) := by positivity
        omega
    have hcontent : i64Bytes v (L - 1) = lenBytes (256 ^ L - (-v).toNat) (L - 1) := by
      have hbig := i64Bytes_neg v (L - 1) (by
        have hcK : ((2 ^ (8 * (L - 1)) : Nat) : Int) = 2 ^ (8 * (L - 1)) := cast_two_pow _
        have heq : (2:Int) ^ (8 * (L - 1 + 1)) = 2 ^ (8 * (L - 1)) * 256 := by
          rw [show 8 * (L - 1 + 1) = 8 * (L - 1) + 8 by omega, pow_add]
          norm_num
        omega) hv
      rw [hbig]
      congr 1
      rw [show 8 * (L - 1 + 1) = 8 * L by omega]
      omega
    unfold write_i64
    dsimp only
    rw [hsh, show 8 * (L - 1) / 8 = L - 1 by omega]
    rw [show L - 1 + 1 = L by omega]
    rw [write_identifier_integer, write_length, lenOctets_short (by omega)]
    rw [hcontent]


/-- C7: the arbitrary-precision integer writers agree byte-for-byte with
the fixed-width writers on every value representable in both: signed on
`[-2^63, 2^63)`, unsigned on `[0, 2^64)`. -/
theorem C7_bigint_equiv :
    (∀ (v : Int) (buf : List Nat), -(2:Int) ^ 63 ≤ v → v < 2 ^ 63 →
      write_bigint v buf = write_i64 v buf) ∧
    (∀ (n : Nat) (buf : List Nat), n < 2 ^ 64 → write_biguint n buf = write_u64 n buf) := by
  constructor
  · intro v buf hneg hpos
    rcases lt_trichotomy v 0 with hv | hv | hv
    · exact write_bigint_neg v hv hneg buf
    · subst hv
      exact write_bigint_zero buf
    · exact write_bigint_pos v hv hpos buf
  · intro n buf hn
    exact write_biguint_eq n hn buf

/-- C7 witness at `v = -1` and `n = 200`. -/
theorem C7_bigint_equiv_witness :
    write_bigint (-1) [] = write_i64 (-1) [] ∧
    write_biguint 200 [] = write_u64 200 [] :=
  ⟨C7_bigint_equiv.1 (-1) [] (by norm_num) (by norm_num),
   C7_bigint_equiv.2 200 [] (by norm_num)⟩

/-! ## Nested sequences (C1) -/
theorem write_identifier_append (tag : Tag) (pc : PC) (buf : List Nat) :
    write_identifier tag pc buf = buf ++ write_identifier tag pc [] := by
  unfold write_identifier
  dsimp only
  split <;> simp

theorem write_bool_append (b : Bool) (buf : List Nat) :
    write_bool b buf = buf ++ write_bool b [] := by
  unfold write_bool write_length
  rw [write_identifier_append]
  conv_rhs => rw [write_identifier_append]
  simp

theorem write_i64_append (v : Int) (buf : List Nat) :
    write_i64 v buf = buf ++ write_i64 v [] := by
  unfold write_i64 write_length
  dsimp only
  rw [write_identifier_append]
  conv_rhs => rw [write_identifier_append]
  simp

theorem write_bytes_append (bs : List Nat) (buf : List Nat) :
    write_bytes bs buf = buf ++ write_bytes bs [] := by
  unfold write_bytes write_length
  rw [write_identifier_append]
  conv_rhs => rw [write_identifier_append]
  simp

theorem write_null_append (buf : List Nat) :
    write_null buf = buf ++ write_null [] := by
  unfold write_null write_length
  rw [write_identifier_append]
  conv_rhs => rw [write_identifier_append]
  simp

theorem write_identifier_sequence (buf : List Nat) :
    write_identifier TAG_SEQUENCE .Constructed buf = buf ++ [48] := by
  unfold write_identifier
  dsimp only
  rw [if_pos (by decide)]
  congr 1

theorem encodeValue_eq_derBytes {ε : Type} :
    ∀ t : ASN1Value, ∀ buf : List Nat,
      encodeValue (ε := ε) t buf = DerResult.ok (buf ++ derBytes t) := by
  intro t
  refine @ASN1Value.rec
    (fun t => ∀ buf : List Nat, encodeValue (ε := ε) t buf = DerResult.ok (buf ++ derBytes t))
    (fun xs => ∀ buf : List Nat, encodeSeq (ε := ε) xs buf = DerResult.ok (buf ++ derList xs))
    ?_ ?_ ?_ ?_ ?_ ?_ ?_ t
  · intro b buf
    rw [show encodeValue (ε := ε) (ASN1Value.boolVal b) buf
        = DerResult.ok (write_bool b buf) from rfl]
    rw [show derBytes (ASN1Value.boolVal b) = write_bool b [] from rfl]
    rw [write_bool_append]
  · intro v buf
    rw [show encodeValue (ε := ε) (ASN1Value.intVal v) buf
        = DerResult.ok (write_i64 v buf) from rfl]
    rw [show derBytes (ASN1Value.intVal v) = write_i64 v [] from rfl]
    rw [write_i64_append]
  · intro bs buf
    rw [show encodeValue (ε := ε) (ASN1Value.bytesVal bs) buf
        = DerResult.ok (write_bytes bs buf) from rfl]
    rw [show derBytes (ASN1Value.bytesVal bs) = write_bytes bs [] from rfl]
    rw [write_bytes_append]
  · intro buf
    rw [show encodeValue (ε := ε) ASN1Value.nullVal buf
        = DerResult.ok (write_null buf) from rfl]
    rw [show derBytes ASN1Value.nullVal = write_null [] from rfl]
    rw [write_null_append]
  · intro xs ih buf
    rw [show encodeValue (ε := ε) (ASN1Value.seqVal xs) buf
        = write_sequence (fun b => encodeSeq xs b) buf from rfl]
    unfold write_sequence
    rw [write_identifier_sequence]
    have hcb : (fun b => encodeSeq (ε := ε) xs b) ((buf ++ [48]) ++ [255, 255, 255])
        = DerResult.ok (((buf ++ [48]) ++ [255, 255, 255]) ++ derList xs) := ih _
    rw [with_length_ok _ _ _ hcb]
    rw [show derBytes (ASN1Value.seqVal xs)
        = 48 :: (lenOctets (derList xs).length ++ derList xs) from rfl]
    simp
  · intro buf
    rw [show encodeSeq (ε := ε) [] buf = DerResult.ok buf from rfl]
    rw [show derList [] = [] from rfl]
    simp
  · intro x xs ihx ihxs buf
    rw [show encodeSeq (ε := ε) (x :: xs) buf
        = (match encodeValue (ε := ε) x buf with
          | .panic => .panic
          | .error e => .error e
          | .ok buf2 => encodeSeq (ε := ε) xs buf2) from rfl]
    rw [ihx buf]
    dsimp only
    rw [ihxs (buf ++ derBytes x)]
    rw [show derList (x :: xs) = derBytes x ++ derList xs from rfl]
    simp


theorem decodeLen_lenOctets (L : Nat) (hL : L < 2 ^ 64) : decodeLen (lenOctets L) = some L := by
  rcases Nat.lt_or_ge L 128 with h | h
  · rw [lenOctets_short h]
    unfold decodeLen
    dsimp only
    rw [if_pos h, if_pos rfl]
  · obtain ⟨k, hk7, hlo, hhi⟩ := exists_k_byte L (by omega) hL
    rw [lenOctets_long hk7 hlo hhi h]
    unfold decodeLen
    rw [lor128_eq_add (by omega)]
    dsimp only
    rw [if_neg (by omega)]
    rw [if_pos (by rw [lenBytes_length]; omega)]
    rw [beVal_lenBytes]
    congr 1
    exact Nat.mod_eq_of_lt (by rw [show 8 * (k + 1) = 8 * k + 8 by ring]; exact hhi)

/-- C1: the deferred-length patch in `with_length` turns the 3-byte
placeholder into exactly the definite-form length octets of the true
content byte count, preserving the content; consequently every value
encoded through `write_sequence` — at any nesting depth and any content
size — is the gapless concatenation `identifier ++ length octets ++
content`, as stated by the compositional ground truth `derBytes`; and
the length octets decode back to the content byte count. -/
theorem C1_deferred_length :
    (∀ (ε : Type) (cb : List Nat → DerResult ε (List Nat)) (buf content : List Nat),
      cb (buf ++ [255, 255, 255]) = DerResult.ok (buf ++ [255, 255, 255] ++ content) →
      with_length cb buf = DerResult.ok (buf ++ lenOctets content.length ++ content)) ∧
    (∀ (ε : Type) (t : ASN1Value) (buf : List Nat),
      encodeValue (ε := ε) t buf = DerResult.ok (buf ++ derBytes t)) ∧
    (∀ (ε : Type) (xs : List ASN1Value) (buf : List Nat),
      write_sequence (ε := ε) (fun b => encodeSeq xs b) buf
        = DerResult.ok (buf ++ 48 :: (lenOctets (derList xs).length ++ derList xs))) ∧
    (∀ L : Nat, L < 2 ^ 64 → decodeLen (lenOctets L) = some L) := by
  refine ⟨fun ε => with_length_ok, fun ε => encodeValue_eq_derBytes,
    fun ε xs buf => ?_, decodeLen_lenOctets⟩
  have h := encodeValue_eq_derBytes (ε := ε) (ASN1Value.seqVal xs) buf
  rw [show encodeValue (ε := ε) (ASN1Value.seqVal xs) buf
      = write_sequence (fun b => encodeSeq xs b) buf from rfl] at h
  rw [h]
  rfl

/-- C1 witness: a content of 200 bytes (crossing the 128-byte length
threshold) through `with_length`, a depth-3 nested sequence through
`encodeValue`, and the length decode at `L = 65536`. -/
theorem C1_deferred_length_witness :
    with_length (fun b => DerResult.ok (ε := Unit) (b ++ List.replicate 200 7)) []
      = DerResult.ok ([] ++ lenOctets (List.replicate 200 7).length ++ List.replicate 200 7) ∧
    encodeValue (ε := Unit)
        (ASN1Value.seqVal [ASN1Value.seqVal [ASN1Value.seqVal [ASN1Value.boolVal true]]]) []
      = DerResult.ok ([] ++ derBytes
          (ASN1Value.seqVal [ASN1Value.seqVal [ASN1Value.seqVal [ASN1Value.boolVal true]]])) ∧
    decodeLen (lenOctets 65536) = some 65536 :=
  ⟨C1_deferred_length.1 Unit _ [] (List.replicate 200 7) (by rw [List.append_assoc]),
   C1_deferred_length.2.1 Unit _ [],
   C1_deferred_length.2.2.2 65536 (by norm_num)⟩

end Yasna

namespace Yasna

theorem set_cmp_eq_spec : ∀ b0 b1, set_cmp b0 b1 = spec_set_cmp b0 b1 := by
  intro b0 b1
  cases b0 with
  | nil =>
    cases b1 <;> rfl
  | cons x0 t0 =>
    cases b1 with
    | nil => rfl
    | cons x1 t1 =>
      unfold set_cmp spec_set_cmp
      dsimp only
      by_cases h1 : x0 &&& 223 = x1 &&& 223
      · by_cases h2 : x0 &&& 31 = 31
        · simp [h1, h2]
        · simp [h1, h2]
          exact Nat.compare_eq_eq.mpr rfl
      · simp [h1]

theorem insertCmp_all_eq (cmp : List Nat → List Nat → Ordering) (a : List Nat) :
    ∀ acc, (∀ y ∈ acc, cmp a y = Ordering.eq) → insertCmp cmp a acc = acc ++ [a] := by
  intro acc
  induction acc with
  | nil => intro _; rfl
  | cons b bs ih =>
    intro h
    have hb : cmp a b = Ordering.eq := h b (List.mem_cons_self b bs)
    rw [show insertCmp cmp a (b :: bs)
        = if cmp a b = Ordering.lt then a :: b :: bs else b :: insertCmp cmp a bs from rfl]
    rw [if_neg (by rw [hb]; intro hc; exact Ordering.noConfusion hc)]
    rw [ih (fun y hy => h y (List.mem_cons_of_mem b hy))]
    rfl

theorem sortByCmp_all_eq (cmp : List Nat → List Nat → Ordering) :
    ∀ (bufs acc : List (List Nat)),
      (∀ x ∈ bufs, ∀ y ∈ acc, cmp x y = Ordering.eq) →
      (∀ x ∈ bufs, ∀ y ∈ bufs, cmp x y = Ordering.eq) →
      List.foldl (fun acc a => insertCmp cmp a acc) acc bufs = acc ++ bufs := by
  intro bufs
  induction bufs with
  | nil =>
    intro acc _ _
    simp
  | cons a bs ih =>
    intro acc hacc hall
    rw [List.foldl_cons]
    rw [insertCmp_all_eq cmp a acc (hacc a (List.mem_cons_self a bs))]
    rw [ih (acc ++ [a]) ?hacc ?hall]
    · simp
    case hacc =>
      intro x hx y hy
      rcases List.mem_append.mp hy with hy | hy
      · exact hacc x (List.mem_cons_of_mem a hx) y hy
      · rw [List.mem_singleton.mp hy]
        exact hall x (List.mem_cons_of_mem a hx) a (List.mem_cons_self a bs)
    case hall =>
      intro x hx y hy
      exact hall x (List.mem_cons_of_mem a hx) y (List.mem_cons_of_mem a hy)

end Yasna

namespace Yasna

/-- C2: the `write_set` sort comparator is exactly the one the spec
describes (masked first byte, ties equal in low-tag form, continuation
length then lexicographic in high-tag form); ties keep insertion order
(a stable sort of an all-tied list is the identity); and the SET example
from the spec encodes as stated. -/
theorem C2_set_comparator :
    (∀ b0 b1, set_cmp b0 b1 = spec_set_cmp b0 b1) ∧
    (∀ bufs, (∀ x ∈ bufs, ∀ y ∈ bufs, set_cmp x y = Ordering.eq) →
      sortByCmp set_cmp bufs = bufs) ∧
    construct_der (ε := Unit) (fun b => write_set
        (fun bufs => DerResult.ok (bufs ++ [write_i64 10 []] ++ [write_bool true []])) b)
      = DerResult.ok [49, 6, 1, 1, 255, 2, 1, 10] := by
  refine ⟨set_cmp_eq_spec, ?_, by decide⟩
  intro bufs hall
  unfold sortByCmp
  rw [sortByCmp_all_eq set_cmp bufs [] (by intro x _ y hy; simp at hy) hall]
  rfl

/-- C2 witness: two low-tag INTEGER members with equal comparator keys
keep their insertion order. -/
theorem C2_set_comparator_witness :
    sortByCmp set_cmp [[2, 1, 9], [2, 1, 5]] = [[2, 1, 9], [2, 1, 5]] :=
  C2_set_comparator.2.1 [[2, 1, 9], [2, 1, 5]] (by decide)

/-- C8: a `write_set` whose callback leaves an empty member buffer hits
the `assert!` — modelled as the irrecoverable `panic` outcome, never the
recoverable error channel; with all members nonempty no panic occurs. -/
theorem C8_set_empty_member :
    ∀ (ε : Type) (cb : List (List Nat) → DerResult ε (List (List Nat)))
      (bufs : List (List Nat)) (buf : List Nat),
      cb [] = DerResult.ok bufs →
      ((∃ b ∈ bufs, b = []) → write_set cb buf = DerResult.panic ∧
        ∀ e : ε, write_set cb buf ≠ DerResult.error e) ∧
      ((∀ b ∈ bufs, b ≠ []) → ∃ out, write_set cb buf = DerResult.ok out) := by
  intro ε cb bufs buf hcb
  unfold write_set
  rw [hcb]
  dsimp only
  constructor
  · rintro ⟨b, hbmem, hbnil⟩
    have hall : bufs.all (fun b => 0 < b.length) = false := by
      rw [List.all_eq_false]
      exact ⟨b, hbmem, by simp [hbnil]⟩
    rw [hall]
    exact ⟨rfl, fun e h => DerResult.noConfusion h⟩
  · intro hne
    have hall : bufs.all (fun b => 0 < b.length) = true := by
      rw [List.all_eq_true]
      intro x hx
      have := List.length_pos.mpr (hne x hx)
      simp
      omega
    rw [hall]
    exact ⟨_, rfl⟩

/-- C8 witness: a callback producing a single empty member panics; one
producing a nonempty member succeeds. -/
theorem C8_set_empty_member_witness :
    write_set (ε := Unit) (fun bufs => DerResult.ok (bufs ++ [[]])) [] = DerResult.panic ∧
    ∃ out, write_set (ε := Unit) (fun bufs => DerResult.ok (bufs ++ [[2, 1, 5]])) []
      = DerResult.ok out :=
  ⟨((C8_set_empty_member Unit _ [[]] [] rfl).1 ⟨[], by simp⟩).1,
   (C8_set_empty_member Unit _ [[2, 1, 5]] [] rfl).2 (by simp)⟩

end Yasna

namespace Yasna

/-- C9: a callback error propagates unchanged through `construct_der`,
`construct_der_seq`, `write_sequence` and `write_set` — the error
constructor carries no bytes, so no partial encoding reaches the caller;
and end-to-end, a nested `write_sequence` error reaches `construct_der`
unchanged. -/
theorem C9_error_propagation :
    ∀ (ε : Type) (e : ε),
      (∀ cb : List Nat → DerResult ε (List Nat), cb [] = DerResult.error e →
        construct_der cb = DerResult.error e) ∧
      (∀ cb : List Nat → DerResult ε (List Nat), cb [] = DerResult.error e →
        construct_der_seq cb = DerResult.error e) ∧
      (∀ (cb : List Nat → DerResult ε (List Nat)) (buf : List Nat),
        cb (write_identifier TAG_SEQUENCE PC.Constructed buf ++ [255, 255, 255])
          = DerResult.error e → write_sequence cb buf = DerResult.error e) ∧
      (∀ (cb : List (List Nat) → DerResult ε (List (List Nat))) (buf : List Nat),
        cb [] = DerResult.error e → write_set cb buf = DerResult.error e) ∧
      (∀ cb : List Nat → DerResult ε (List Nat),
        cb ([48] ++ [255, 255, 255]) = DerResult.error e →
        construct_der (fun b => write_sequence cb b) = DerResult.error e) := by
  intro ε e
  refine ⟨?_, ?_, ?_, ?_, ?_⟩
  · intro cb h
    unfold construct_der
    rw [h]
  · intro cb h
    unfold construct_der_seq
    rw [h]
  · intro cb buf h
    unfold write_sequence with_length
    dsimp only
    rw [h]
  · intro cb buf h
    unfold write_set
    rw [h]
  · intro cb h
    have hseq : write_sequence cb [] = DerResult.error e := by
      unfold write_sequence with_length
      dsimp only
      rw [write_identifier_sequence]
      rw [show (([]:List Nat) ++ [48]) = [48] from rfl]
      rw [h]
    unfold construct_der
    dsimp only
    rw [hseq]

/-- C9 witness with a concrete error value. -/
theorem C9_error_propagation_witness :
    construct_der (fun _ => DerResult.error (ε := Nat) 7) = DerResult.error 7 ∧
    construct_der (fun b => write_sequence (fun _ => DerResult.error (ε := Nat) 7) b)
      = DerResult.error 7 :=
  ⟨(C9_error_propagation Nat 7).1 _ rfl,
   (C9_error_propagation Nat 7).2.2.2.2 _ rfl⟩

/-- C10: `construct_der` does not check that its callback wrote a value:
a callback that returns success leaving the buffer untouched yields
`ok []`, not an error. -/
theorem C10_construct_der_unchecked :
    ∀ (ε : Type) (cb : List Nat → DerResult ε (List Nat)),
      cb [] = DerResult.ok [] → construct_der cb = DerResult.ok [] := by
  intro ε cb h
  unfold construct_der
  rw [h]

/-- C10 witness: the identity callback. -/
theorem C10_construct_der_unchecked_witness :
    construct_der (ε := Unit) (fun b => DerResult.ok b) = DerResult.ok [] :=
  C10_construct_der_unchecked Unit _ rfl

end Yasna
